import Mathlib

/-!
# Verification of the multiprocess work-distribution / chunked-output core

Shallow embedding of the core of `thesis-data-processing`:

* `JSONWriter` — the chunked JSON writer of `src/core/file/writers.py`
  (`JSONWriter.__init__`, `_flush_buffer`, `write_object`, `close`).
* `JSONReader` — the streaming reader of `src/core/file/readers.py`
  (`__iter__` / `__next__` / `read_batch`).
* `Multiprocessor` — the pool controller and worker of `src/util/parallel.py`
  (`__init__`, `_worker_function`, `close`).

Records are abstract (`α`, `R`); the on-disk representation of a file is the
list of records it holds, in write order.  Machine integers from the Python
source are modelled as `Int` (Python integers are unbounded, so no wraparound
is involved).
-/

namespace ThesisData

/-! ## Chunked writer (`src/core/file/writers.py`, class `JSONWriter`)

State of one writer.  `closedFiles` lists every finalized output file, as the
pair (part index the file was created with, records it contains); an open,
not-yet-finalized file is `currentFile`.  `currentFileObjects` is the source's
`self.current_file_objects` counter (kept as the source keeps it, including the
situation at `close()` where it can exceed the number of records actually in
the file). -/

structure JSONWriter (α : Type) where
  closedFiles : List (Nat × List α)
  currentFile : Option (List α)
  currentFileIndex : Nat
  currentFileObjects : Int
  buffer : List α
  maxFileObjects : Int
  bufferSize : Int
  deriving Repr, DecidableEq

/-- `JSONWriter.__init__`: field initialisation; the Python constructor maps a
falsy `max_file_objects_amount` (`None` or `0`) to `-1`, and
`assert buffer_size > 0` raises before any file I/O is performed. -/
def JSONWriter.init (α : Type) (maxFileObjectsAmount : Option Int) (bufferSize : Int) :
    Except String (JSONWriter α) :=
  if bufferSize ≤ 0 then .error "Buffer size must be a positive integer"
  else .ok
    { closedFiles := []
      currentFile := none
      currentFileIndex := 1
      currentFileObjects := 0
      buffer := []
      maxFileObjects :=
        match maxFileObjectsAmount with
        | some v => if v = 0 then -1 else v
        | none => -1
      bufferSize := bufferSize }

/-- The state `JSONWriter.init` produces when its assertion passes
(used to state theorems about freshly constructed writers). -/
def JSONWriter.initState (α : Type) (maxFileObjects bufferSize : Int) : JSONWriter α :=
  { closedFiles := []
    currentFile := none
    currentFileIndex := 1
    currentFileObjects := 0
    buffer := []
    maxFileObjects := maxFileObjects
    bufferSize := bufferSize }

/-- `JSONWriter._flush_buffer`.  When no file is open, a new one is created
(named with the current part index when capped) and the object counter reset;
then `num_of_objects = min(buffer_size, max_file_objects_amount -
current_file_objects)` records (capped case) or `buffer_size` records
(uncapped case) are moved from the buffer to the file — Python slicing
`buffer[:num]` takes at most `len(buffer)` elements, while the counter is
increased by the full `num_of_objects`.  Finally, per the chained comparison
`current_file_objects >= max_file_objects_amount > 0`, a full file is
finalized and the part index incremented.  (`num_of_objects` is never negative
on states the constructor and the operations below can reach, so `Int.toNat`
agrees with Python slicing there.) -/
def JSONWriter.flushBuffer (s : JSONWriter α) : JSONWriter α :=
  let s :=
    match s.currentFile with
    | none => { s with currentFile := some [], currentFileObjects := 0 }
    | some _ => s
  let num : Int :=
    if 0 < s.maxFileObjects then min s.bufferSize (s.maxFileObjects - s.currentFileObjects)
    else s.bufferSize
  let s :=
    { s with
      currentFile := s.currentFile.map (· ++ s.buffer.take num.toNat)
      currentFileObjects := s.currentFileObjects + num
      buffer := s.buffer.drop num.toNat }
  if s.maxFileObjects ≤ s.currentFileObjects ∧ 0 < s.maxFileObjects then
    match s.currentFile with
    | some f =>
        { s with
          closedFiles := s.closedFiles ++ [(s.currentFileIndex, f)]
          currentFile := none
          currentFileIndex := s.currentFileIndex + 1 }
    | none => s
  else s

/-- `JSONWriter.write_object`: append the serialized record to the buffer and
flush once the buffer holds `buffer_size` records. -/
def JSONWriter.writeObject (s : JSONWriter α) (x : α) : JSONWriter α :=
  let s := { s with buffer := s.buffer ++ [x] }
  if s.bufferSize ≤ (s.buffer.length : Int) then s.flushBuffer else s

/-- The `while len(self.buffer) > 0: self._flush_buffer()` loop of
`JSONWriter.close`.  The source loops until the buffer is empty; when a flush
step fails to shrink the buffer the source would loop forever, so that branch
(unreachable from constructor-validated writers, whose buffer size is
positive) simply stops. -/
def JSONWriter.closeLoop (s : JSONWriter α) : JSONWriter α :=
  match s.buffer with
  | [] => s
  | _ :: _ =>
    let s' := s.flushBuffer
    if h : s'.buffer.length < s.buffer.length then s'.closeLoop
    else s'
termination_by s.buffer.length

/-- Finalization step of `JSONWriter.close`: if a file is open, write the
closing bracket, close the handle and bump the part index. -/
def JSONWriter.closeFinal (s : JSONWriter α) : JSONWriter α :=
  match s.currentFile with
  | some f =>
      { s with
        closedFiles := s.closedFiles ++ [(s.currentFileIndex, f)]
        currentFile := none
        currentFileIndex := s.currentFileIndex + 1 }
  | none => s

/-- `JSONWriter.close`: drain the buffer, then finalize the open file. -/
def JSONWriter.close (s : JSONWriter α) : JSONWriter α :=
  s.closeLoop.closeFinal

/-- Writing a whole stream of records, one `write_object` call per record. -/
def JSONWriter.writeAll (s : JSONWriter α) (xs : List α) : JSONWriter α :=
  xs.foldl JSONWriter.writeObject s

/-! ### Chunking, as a specification-side list operation -/

/-- Split a list into consecutive chunks of `k` elements (the last chunk may be
shorter).  For `k = 0` the whole list is one chunk (that case is never used
with the writer, whose cap is positive whenever chunking applies). -/
def chunkList (k : Nat) (l : List α) : List (List α) :=
  match _h : l with
  | [] => []
  | a :: t =>
    if _hk : k = 0 then [l]
    else l.take k :: chunkList k (l.drop k)
termination_by l.length
decreasing_by
  simp only [_h, List.length_drop, List.length_cons]
  omega

theorem chunkList_nil (k : Nat) : chunkList k ([] : List α) = [] := by
  simp [chunkList]

theorem chunkList_cons (k : Nat) (hk : k ≠ 0) (l : List α) (hl : l ≠ []) :
    chunkList k l = l.take k :: chunkList k (l.drop k) := by
  match l with
  | [] => exact absurd rfl hl
  | a :: t => rw [chunkList]; simp [hk]

theorem chunkList_ne_nil (k : Nat) (hk : k ≠ 0) (l : List α) (hl : l ≠ []) :
    chunkList k l ≠ [] := by
  rw [chunkList_cons k hk l hl]; simp

theorem chunkList_single (k : Nat) (hk : 0 < k) (l : List α) (hl : l ≠ [])
    (hlen : l.length ≤ k) : chunkList k l = [l] := by
  rw [chunkList_cons k (by omega) l hl, List.take_of_length_le hlen,
    List.drop_eq_nil_of_le hlen, chunkList_nil]

theorem chunkList_append_of_length_eq (k : Nat) (hk : 0 < k) (a l : List α)
    (ha : a.length = k) : chunkList k (a ++ l) = a :: chunkList k l := by
  have hane : a ≠ [] := by
    intro h
    subst h
    simp at ha
    omega
  rw [chunkList_cons k (by omega) _ (by simp [hane]), ← ha, List.take_left, List.drop_left]

theorem chunkList_join_aux (k : Nat) (hk : 0 < k) :
    ∀ n (l : List α), l.length ≤ n → (chunkList k l).flatten = l := by
  intro n
  induction n with
  | zero =>
    intro l hl
    have : l = [] := List.eq_nil_of_length_eq_zero (by omega)
    subst this
    simp [chunkList_nil]
  | succ n ih =>
    intro l hl
    match l with
    | [] => simp [chunkList_nil]
    | a :: t =>
      rw [chunkList_cons k (by omega) _ (by simp)]
      simp only [List.flatten_cons]
      rw [ih _ (by simp only [List.length_drop]; simp at hl ⊢; omega)]
      exact List.take_append_drop k (a :: t)

theorem chunkList_join (k : Nat) (hk : 0 < k) (l : List α) : (chunkList k l).flatten = l :=
  chunkList_join_aux k hk l.length l le_rfl

theorem chunkList_length_aux (k : Nat) (hk : 0 < k) :
    ∀ n (l : List α), l.length ≤ n → (chunkList k l).length = (l.length + k - 1) / k := by
  intro n
  induction n with
  | zero =>
    intro l hl
    have : l = [] := List.eq_nil_of_length_eq_zero (by omega)
    subst this
    rw [chunkList_nil]
    have hz : (0 + k - 1) / k = 0 := Nat.div_eq_of_lt (by omega)
    simpa using hz.symm
  | succ n ih =>
    intro l hl
    match l with
    | [] =>
      rw [chunkList_nil]
      have hz : (0 + k - 1) / k = 0 := Nat.div_eq_of_lt (by omega)
      simpa using hz.symm
    | a :: t =>
      rw [chunkList_cons k (by omega) _ (by simp)]
      simp only [List.length_cons]
      rw [ih _ (by simp only [List.length_drop]; simp at hl ⊢; omega)]
      simp only [List.length_drop, List.length_cons]
      rcases le_or_lt (t.length + 1) k with hc | hc
      · have h1 : t.length + 1 - k = 0 := by omega
        rw [h1]
        rw [Nat.div_eq_of_lt (by omega)]
        have h2 : t.length + 1 + k - 1 = t.length + k := by omega
        rw [h2, Nat.add_div_right _ (by omega), Nat.div_eq_of_lt (by omega)]
      · have h1 : t.length + 1 - k + k - 1 + k = t.length + 1 + k - 1 := by omega
        rw [← h1, Nat.add_div_right _ (by omega)]

theorem chunkList_length (k : Nat) (hk : 0 < k) (l : List α) :
    (chunkList k l).length = (l.length + k - 1) / k :=
  chunkList_length_aux k hk l.length l le_rfl

theorem chunkList_dropLast_aux (k : Nat) (hk : 0 < k) :
    ∀ n (l : List α), l.length ≤ n → ∀ c ∈ (chunkList k l).dropLast, c.length = k := by
  intro n
  induction n with
  | zero =>
    intro l hl
    have : l = [] := List.eq_nil_of_length_eq_zero (by omega)
    subst this
    simp [chunkList_nil]
  | succ n ih =>
    intro l hl
    match l with
    | [] => simp [chunkList_nil]
    | a :: t =>
      rw [chunkList_cons k (by omega) _ (by simp)]
      rcases le_or_lt ((a :: t).length) k with hc | hc
      · rw [List.drop_eq_nil_of_le hc, chunkList_nil]
        simp
      · have hdne : (a :: t).drop k ≠ [] := by
          intro h
          have := congrArg List.length h
          simp at this hc
          omega
        have hrest : chunkList k ((a :: t).drop k) ≠ [] :=
          chunkList_ne_nil k (by omega) _ hdne
        intro c hc'
        match hrec : chunkList k ((a :: t).drop k) with
        | [] => exact absurd hrec hrest
        | r :: rs =>
          rw [hrec] at hc'
          rw [List.dropLast_cons₂, List.mem_cons] at hc'
          rcases hc' with h | h
          · subst h
            simp only [List.length_take, List.length_cons]
            simp only [List.length_cons] at hc
            omega
          · have := ih ((a :: t).drop k)
              (by simp only [List.length_drop]; simp at hl ⊢; omega) c
            rw [hrec] at this
            exact this h

theorem chunkList_dropLast (k : Nat) (hk : 0 < k) (l : List α) :
    ∀ c ∈ (chunkList k l).dropLast, c.length = k :=
  chunkList_dropLast_aux k hk l.length l le_rfl

theorem chunkList_mem_aux (k : Nat) (hk : 0 < k) :
    ∀ n (l : List α), l.length ≤ n → ∀ c ∈ chunkList k l, c ≠ [] ∧ c.length ≤ k := by
  intro n
  induction n with
  | zero =>
    intro l hl
    have : l = [] := List.eq_nil_of_length_eq_zero (by omega)
    subst this
    simp [chunkList_nil]
  | succ n ih =>
    intro l hl
    match l with
    | [] => simp [chunkList_nil]
    | a :: t =>
      rw [chunkList_cons k (by omega) _ (by simp)]
      intro c hc
      rw [List.mem_cons] at hc
      rcases hc with h | h
      · subst h
        refine ⟨?_, ?_⟩
        · simp [List.take_eq_nil_iff]
          omega
        · simp [List.length_take]
      · exact ih _ (by simp only [List.length_drop]; simp at hl ⊢; omega) c h

theorem chunkList_mem (k : Nat) (hk : 0 < k) (l : List α) :
    ∀ c ∈ chunkList k l, c ≠ [] ∧ c.length ≤ k :=
  chunkList_mem_aux k hk l.length l le_rfl

theorem chunkList_full_prefix (k : Nat) (hk : 0 < k) :
    ∀ (L : List (List α)) (rest : List α), (∀ f ∈ L, f.length = k) →
      chunkList k (L.flatten ++ rest) = L ++ chunkList k rest := by
  intro L
  induction L with
  | nil => simp
  | cons a t ih =>
    intro rest hf
    simp only [List.flatten_cons, List.append_assoc, List.cons_append]
    rw [chunkList_append_of_length_eq k hk a _ (hf a (by simp))]
    rw [ih rest (fun f hmem => hf f (by simp [hmem]))]

/-! ### Behaviour of `_flush_buffer` and `close` -/

theorem range'_split (s m n : Nat) :
    List.range' s (m + n) = List.range' s m ++ List.range' (s + m) n := by
  have h := List.range'_append s m n 1
  rw [Nat.one_mul] at h
  rw [Nat.add_comm n m] at h
  exact h.symm

/-- With no open file, `_flush_buffer` first opens one (zero objects so far). -/
theorem JSONWriter.flush_none (cf : List (Nat × List α)) (idx : Nat) (cnt : Int)
    (buf : List α) (mfo bs : Int) :
    JSONWriter.flushBuffer (⟨cf, none, idx, cnt, buf, mfo, bs⟩ : JSONWriter α) =
      JSONWriter.flushBuffer (⟨cf, some [], idx, 0, buf, mfo, bs⟩ : JSONWriter α) := rfl

/-- One `_flush_buffer` call on a capped writer whose open file holds
`c.length < k` records and whose counter is accurate: `min b (k - c.length)`
records move from the buffer into the file (fewer if the buffer is shorter,
while the counter still advances by the full amount), and the file is
finalized exactly when the counter reaches the cap. -/
theorem JSONWriter.flush_some (cf : List (Nat × List α)) (c : List α) (idx : Nat)
    (buf : List α) (k b : Nat) (hk : 0 < k) (hb : 0 < b) (hck : c.length < k) :
    JSONWriter.flushBuffer ⟨cf, some c, idx, (c.length : Int), buf, (k : Int), (b : Int)⟩ =
      (if k ≤ c.length + min b (k - c.length) then
        ⟨cf ++ [(idx, c ++ buf.take (min b (k - c.length)))], none, idx + 1,
          ((c.length + min b (k - c.length) : Nat) : Int), buf.drop (min b (k - c.length)),
          (k : Int), (b : Int)⟩
      else
        ⟨cf, some (c ++ buf.take (min b (k - c.length))), idx,
          ((c.length + min b (k - c.length) : Nat) : Int), buf.drop (min b (k - c.length)),
          (k : Int), (b : Int)⟩ : JSONWriter α) := by
  have hmin : min (b : Int) ((k : Int) - (c.length : Int))
      = ((min b (k - c.length) : Nat) : Int) := by
    push_cast [Nat.cast_sub (le_of_lt hck)]
    rfl
  have htn : (((min b (k - c.length) : Nat) : Int)).toNat = min b (k - c.length) :=
    Int.toNat_natCast _
  simp only [JSONWriter.flushBuffer]
  simp only [if_pos (show (0:Int) < (k:Int) by exact_mod_cast hk), hmin, htn]
  have hcast : (c.length : Int) + ((min b (k - c.length) : Nat) : Int)
      = ((c.length + min b (k - c.length) : Nat) : Int) := by push_cast; ring
  rw [hcast]
  by_cases hcond : k ≤ c.length + min b (k - c.length)
  · rw [if_pos hcond, if_pos ⟨(by exact_mod_cast hcond), (by exact_mod_cast hk)⟩]
    simp
  · rw [if_neg hcond, if_neg (fun hand => hcond (by exact_mod_cast hand.1))]
    simp

/-- `close` steps through one iteration of its flush loop. -/
theorem JSONWriter.close_step (s : JSONWriter α) (hbne : s.buffer ≠ [])
    (hdec : s.flushBuffer.buffer.length < s.buffer.length) :
    JSONWriter.close s = JSONWriter.close s.flushBuffer := by
  unfold JSONWriter.close
  congr 1
  conv_lhs => rw [JSONWriter.closeLoop]
  cases hbuf : s.buffer with
  | nil => exact absurd hbuf hbne
  | cons a t =>
    simp only [hbuf]
    rw [dif_pos (hbuf ▸ hdec)]

theorem JSONWriter.closeLoop_nil (s : JSONWriter α) (hb : s.buffer = []) :
    JSONWriter.closeLoop s = s := by
  rw [JSONWriter.closeLoop]
  simp [hb]

/-- `close` on an empty buffer: only the open file (if any) is finalized. -/
theorem JSONWriter.close_chunks_nil (k : Nat) (hk : 0 < k)
    (s : JSONWriter α) (hbuf : s.buffer = [])
    (hcur : ∀ c, s.currentFile = some c →
      c.length < k ∧ s.currentFileObjects = (c.length : Int) ∧ (c ≠ [] ∨ s.buffer ≠ [])) :
    (JSONWriter.close s).closedFiles
      = s.closedFiles ++ (List.range' s.currentFileIndex
          (chunkList k (s.currentFile.getD [] ++ s.buffer)).length).zip
          (chunkList k (s.currentFile.getD [] ++ s.buffer)) := by
  rw [JSONWriter.close, JSONWriter.closeLoop_nil s hbuf]
  cases hc : s.currentFile with
  | none =>
    simp [JSONWriter.closeFinal, hc, hbuf, chunkList_nil]
  | some c =>
    obtain ⟨hck, hcnt, hne⟩ := hcur c hc
    have hcne : c ≠ [] := hne.resolve_right (by simp [hbuf])
    have hchunk : chunkList k c = [c] := chunkList_single k hk c hcne (le_of_lt hck)
    simp [JSONWriter.closeFinal, hc, hbuf, hchunk]

/-- Induction core for `close`: after one flush of a non-empty buffer on a
capped writer with an accurate open file, the rest of the run realises exactly
the chunking of (open-file records ++ buffered records). -/
theorem JSONWriter.close_chunks_core (k b : Nat) (hk : 0 < k) (hb : 0 < b) (n : Nat)
    (ihn : ∀ s : JSONWriter α, s.buffer.length ≤ n →
      s.bufferSize = (b : Int) → s.maxFileObjects = (k : Int) →
      (∀ c, s.currentFile = some c →
        c.length < k ∧ s.currentFileObjects = (c.length : Int) ∧ (c ≠ [] ∨ s.buffer ≠ [])) →
      (JSONWriter.close s).closedFiles
        = s.closedFiles ++ (List.range' s.currentFileIndex
            (chunkList k (s.currentFile.getD [] ++ s.buffer)).length).zip
            (chunkList k (s.currentFile.getD [] ++ s.buffer)))
    (cf : List (Nat × List α)) (c : List α) (idx : Nat) (a : α) (t : List α)
    (hck : c.length < k) (hlen : t.length ≤ n) :
    (JSONWriter.close
      (if k ≤ c.length + min b (k - c.length) then
        (⟨cf ++ [(idx, c ++ (a :: t).take (min b (k - c.length)))], none, idx + 1,
          ((c.length + min b (k - c.length) : Nat) : Int),
          (a :: t).drop (min b (k - c.length)), (k : Int), (b : Int)⟩ : JSONWriter α)
      else
        ⟨cf, some (c ++ (a :: t).take (min b (k - c.length))), idx,
          ((c.length + min b (k - c.length) : Nat) : Int),
          (a :: t).drop (min b (k - c.length)), (k : Int), (b : Int)⟩)).closedFiles
      = cf ++ (List.range' idx (chunkList k (c ++ a :: t)).length).zip
          (chunkList k (c ++ a :: t)) := by
  set num := min b (k - c.length) with hnum
  have hnum1 : 1 ≤ num := le_min (by omega) (by omega)
  have hnumk : c.length + num ≤ k := by
    have := min_le_right b (k - c.length)
    omega
  by_cases hcond : k ≤ c.length + num
  · rw [if_pos hcond]
    rcases le_or_lt num (a :: t).length with hcover | hcover
    · have htl : ((a :: t).take num).length = num := by
        simp [List.length_take]
        simp at hcover
        omega
      have hchunk : chunkList k (c ++ a :: t)
          = (c ++ (a :: t).take num) :: chunkList k ((a :: t).drop num) := by
        have hsplit : c ++ a :: t = (c ++ (a :: t).take num) ++ (a :: t).drop num := by
          rw [List.append_assoc, List.take_append_drop]
        rw [hsplit]
        exact chunkList_append_of_length_eq k hk _ _
          (by rw [List.length_append, htl]; omega)
      have hihres := ihn ⟨cf ++ [(idx, c ++ (a :: t).take num)], none, idx + 1,
          ((c.length + num : Nat) : Int), (a :: t).drop num, (k : Int), (b : Int)⟩
        (by simp [List.length_drop]; omega) rfl rfl (by intro c' hc'; simp at hc')
      rw [hihres]
      simp only [Option.getD_none, List.nil_append]
      rw [hchunk, List.length_cons, List.range'_succ, List.zip_cons_cons]
      simp [List.append_assoc]
    · have hdrop : (a :: t).drop num = [] := List.drop_eq_nil_of_le (le_of_lt hcover)
      have htake : (a :: t).take num = a :: t := List.take_of_length_le (le_of_lt hcover)
      rw [hdrop, htake]
      rw [JSONWriter.close, JSONWriter.closeLoop_nil _ rfl]
      have hchunk : chunkList k (c ++ a :: t) = [c ++ a :: t] := by
        refine chunkList_single k hk _ (by simp) ?_
        simp only [List.length_append, List.length_cons]
        simp at hcover
        omega
      simp [JSONWriter.closeFinal, hchunk]
  · rw [if_neg hcond]
    push_neg at hcond
    rcases le_or_lt (a :: t).length num with hcover | hcover
    · have hdrop : (a :: t).drop num = [] := List.drop_eq_nil_of_le hcover
      have htake : (a :: t).take num = a :: t := List.take_of_length_le hcover
      rw [hdrop, htake]
      rw [JSONWriter.close, JSONWriter.closeLoop_nil _ rfl]
      have hchunk : chunkList k (c ++ a :: t) = [c ++ a :: t] := by
        refine chunkList_single k hk _ (by simp) ?_
        simp only [List.length_append, List.length_cons]
        simp at hcover
        omega
      simp [JSONWriter.closeFinal, hchunk]
    · have htl : ((a :: t).take num).length = num := by
        simp [List.length_take]
        simp at hcover
        omega
      have hihres := ihn ⟨cf, some (c ++ (a :: t).take num), idx,
          ((c.length + num : Nat) : Int), (a :: t).drop num, (k : Int), (b : Int)⟩
        (by simp [List.length_drop]; omega) rfl rfl
        (by
          intro c' hc'
          simp only [Option.some.injEq] at hc'
          subst hc'
          refine ⟨?_, ?_, Or.inl ?_⟩
          · rw [List.length_append, htl]
            omega
          · rw [List.length_append, htl]
          · have : (a :: t).take num ≠ [] := by
              simp [List.take_eq_nil_iff]
              omega
            simp [this])
      rw [hihres]
      simp only [Option.getD_some]
      rw [List.append_assoc, List.take_append_drop]

/-- Main characterisation of `JSONWriter.close` on a capped writer: the files
it finalizes are exactly the `k`-chunks of (open-file records ++ buffered
records), with consecutive part indices. -/
theorem JSONWriter.close_chunks (k b : Nat) (hk : 0 < k) (hb : 0 < b) :
    ∀ (n : Nat) (s : JSONWriter α), s.buffer.length ≤ n →
      s.bufferSize = (b : Int) → s.maxFileObjects = (k : Int) →
      (∀ c, s.currentFile = some c →
        c.length < k ∧ s.currentFileObjects = (c.length : Int) ∧ (c ≠ [] ∨ s.buffer ≠ [])) →
      (JSONWriter.close s).closedFiles
        = s.closedFiles ++ (List.range' s.currentFileIndex
            (chunkList k (s.currentFile.getD [] ++ s.buffer)).length).zip
            (chunkList k (s.currentFile.getD [] ++ s.buffer)) := by
  intro n
  induction n with
  | zero =>
    intro s hlen hbs hm hcur
    exact JSONWriter.close_chunks_nil k hk s (List.eq_nil_of_length_eq_zero (by omega)) hcur
  | succ n ihn =>
    intro s hlen hbs hm hcur
    cases hbuf : s.buffer with
    | nil =>
      have h := JSONWriter.close_chunks_nil k hk s hbuf hcur
      rw [hbuf] at h
      exact h
    | cons a t =>
      obtain ⟨cf, cur, idx, cnt, buf0, mfo, bs⟩ := s
      replace hbuf : buf0 = a :: t := hbuf
      replace hbs : bs = (b : Int) := hbs
      replace hm : mfo = (k : Int) := hm
      replace hlen : buf0.length ≤ n + 1 := hlen
      subst hbuf hbs hm
      have hlen' : t.length ≤ n := by
        simp at hlen
        omega
      cases cur with
      | some c =>
        obtain ⟨hck, hcnt, -⟩ := hcur c rfl
        replace hcnt : cnt = (c.length : Int) := hcnt
        subst hcnt
        have hflush := JSONWriter.flush_some cf c idx (a :: t) k b hk hb hck
        have hnum1 : 1 ≤ min b (k - c.length) := le_min (by omega) (by omega)
        have hdecb : (JSONWriter.flushBuffer
            (⟨cf, some c, idx, (c.length : Int), a :: t, (k : Int),
              (b : Int)⟩ : JSONWriter α)).buffer.length < (a :: t).length := by
          rw [hflush]
          split <;> simp [List.length_drop] <;> omega
        rw [JSONWriter.close_step _ (by simp) hdecb, hflush]
        simpa using
          JSONWriter.close_chunks_core k b hk hb n ihn cf c idx a t hck hlen'
      | none =>
        have hflush : JSONWriter.flushBuffer
            (⟨cf, none, idx, cnt, a :: t, (k : Int), (b : Int)⟩ : JSONWriter α)
          = (if k ≤ 0 + min b (k - 0) then
              (⟨cf ++ [(idx, ([] : List α) ++ (a :: t).take (min b (k - 0)))],
                none, idx + 1, ((0 + min b (k - 0) : Nat) : Int),
                (a :: t).drop (min b (k - 0)), (k : Int), (b : Int)⟩ : JSONWriter α)
            else
              ⟨cf, some (([] : List α) ++ (a :: t).take (min b (k - 0))), idx,
                ((0 + min b (k - 0) : Nat) : Int),
                (a :: t).drop (min b (k - 0)), (k : Int), (b : Int)⟩) := by
          rw [JSONWriter.flush_none]
          exact JSONWriter.flush_some cf [] idx (a :: t) k b hk hb (by simpa using hk)
        have hnum1 : 1 ≤ min b (k - 0) := le_min (by omega) (by omega)
        have hdecb : (JSONWriter.flushBuffer
            (⟨cf, none, idx, cnt, a :: t, (k : Int),
              (b : Int)⟩ : JSONWriter α)).buffer.length < (a :: t).length := by
          rw [hflush]
          split <;> simp [List.length_drop] <;> omega
        rw [JSONWriter.close_step _ (by simp) hdecb, hflush]
        simpa using
          JSONWriter.close_chunks_core k b hk hb n ihn cf [] idx a t (by simpa using hk) hlen'

/-! ### The write-phase invariant -/

/-- All records a writer state accounts for (finalized files, open file,
buffer), in write order. -/
def JSONWriter.recordsOf (s : JSONWriter α) : List α :=
  (s.closedFiles.map Prod.snd).flatten ++ s.currentFile.getD [] ++ s.buffer

/-- `_flush_buffer` only moves records between buffer, open file and closed
files; it never duplicates or drops one. -/
theorem JSONWriter.recordsOf_flush (s : JSONWriter α) :
    (s.flushBuffer).recordsOf = s.recordsOf := by
  rcases s with ⟨cf, cur, idx, cnt, buf, mfo, bs⟩
  cases cur with
  | none =>
    simp only [JSONWriter.flushBuffer, JSONWriter.recordsOf, Option.map_some']
    split <;> split <;>
      simp [List.map_append, List.flatten_append, List.append_assoc, List.take_append_drop]
  | some c =>
    simp only [JSONWriter.flushBuffer, JSONWriter.recordsOf, Option.map_some']
    split <;> split <;>
      simp [List.map_append, List.flatten_append, List.append_assoc, List.take_append_drop]

/-- `write_object` appends exactly the written record. -/
theorem JSONWriter.recordsOf_writeObject (s : JSONWriter α) (x : α) :
    (s.writeObject x).recordsOf = s.recordsOf ++ [x] := by
  simp only [JSONWriter.writeObject]
  split
  · rw [JSONWriter.recordsOf_flush]
    simp [JSONWriter.recordsOf, List.append_assoc]
  · simp [JSONWriter.recordsOf, List.append_assoc]

theorem JSONWriter.recordsOf_writeAll (s : JSONWriter α) (xs : List α) :
    (s.writeAll xs).recordsOf = s.recordsOf ++ xs := by
  induction xs generalizing s with
  | nil => simp [JSONWriter.writeAll]
  | cons x xs ih =>
    show ((s.writeObject x).writeAll xs).recordsOf = _
    rw [ih, JSONWriter.recordsOf_writeObject, List.append_assoc]
    rfl

/-- Invariant holding between `write_object` calls on a capped writer: the
buffer is below the flush threshold, the object counter matches the open
file's contents exactly, every finalized file holds exactly `k` records and
part indices are consecutive from 1. -/
structure JSONWriter.Good (k b : Nat) (s : JSONWriter α) : Prop where
  hbs : s.bufferSize = (b : Int)
  hm : s.maxFileObjects = (k : Int)
  hblen : s.buffer.length < b
  hcur : ∀ c, s.currentFile = some c →
    c.length < k ∧ s.currentFileObjects = (c.length : Int) ∧ c ≠ []
  hsizes : ∀ f ∈ s.closedFiles, (f.2).length = k
  hidx : s.closedFiles.map Prod.fst = List.range' 1 s.closedFiles.length
  hcidx : s.currentFileIndex = s.closedFiles.length + 1

theorem JSONWriter.good_init (k b : Nat) (hb : 0 < b) :
    (JSONWriter.initState α (k : Int) (b : Int)).Good k b := by
  refine ⟨rfl, rfl, by simpa [JSONWriter.initState] using hb, ?_, ?_, ?_, ?_⟩ <;>
    simp [JSONWriter.initState]

/-- A full-buffer flush from a `Good`-shaped state restores `Good`. -/
theorem JSONWriter.good_flush_some (k b : Nat) (hk : 0 < k) (hb : 0 < b)
    (cf : List (Nat × List α)) (c : List α) (idx : Nat) (buf : List α)
    (hfull : buf.length = b) (hck : c.length < k)
    (hsizes : ∀ f ∈ cf, (f.2).length = k)
    (hidx : cf.map Prod.fst = List.range' 1 cf.length)
    (hcidx : idx = cf.length + 1) :
    (JSONWriter.flushBuffer
      (⟨cf, some c, idx, (c.length : Int), buf, (k : Int), (b : Int)⟩ : JSONWriter α)).Good
        k b := by
  rw [JSONWriter.flush_some cf c idx buf k b hk hb hck]
  have hnum1 : 1 ≤ min b (k - c.length) := le_min (by omega) (by omega)
  have hnumb : min b (k - c.length) ≤ b := min_le_left _ _
  have hnumk : c.length + min b (k - c.length) ≤ k := by
    have := min_le_right b (k - c.length)
    omega
  have htl : (buf.take (min b (k - c.length))).length = min b (k - c.length) := by
    simp [List.length_take]
    omega
  split
  · next hcond =>
    refine ⟨rfl, rfl, ?_, ?_, ?_, ?_, ?_⟩
    · simp [List.length_drop]
      omega
    · intro c' hc'
      simp at hc'
    · intro f hf
      rcases List.mem_append.mp hf with h | h
      · exact hsizes f h
      · simp at h
        subst h
        simp only [List.length_append, htl]
        omega
    · rw [List.map_append, hidx, hcidx]
      simp [range'_split (1 : Nat) cf.length 1, Nat.add_comm]
    · simp [List.length_append, hcidx]
  · next hcond =>
    refine ⟨rfl, rfl, ?_, ?_, hsizes, hidx, hcidx⟩
    · simp [List.length_drop]
      omega
    · intro c' hc'
      simp only [Option.some.injEq] at hc'
      subst hc'
      refine ⟨?_, ?_, ?_⟩
      · rw [List.length_append, htl]
        omega
      · rw [List.length_append, htl]
      · have hbne : buf ≠ [] := by
          intro h0
          rw [h0] at hfull
          simp at hfull
          omega
        have : buf.take (min b (k - c.length)) ≠ [] := by
          simp [List.take_eq_nil_iff, hbne]
          omega
        simp [this]

/-- `write_object` preserves the write-phase invariant. -/
theorem JSONWriter.good_writeObject (k b : Nat) (hk : 0 < k) (hb : 0 < b)
    (s : JSONWriter α) (hg : s.Good k b) (x : α) : (s.writeObject x).Good k b := by
  obtain ⟨hbs, hm, hblen, hcur, hsizes, hidx, hcidx⟩ := hg
  rcases s with ⟨cf, cur, idx, cnt, buf, mfo, bs⟩
  replace hbs : bs = (b : Int) := hbs
  replace hm : mfo = (k : Int) := hm
  replace hblen : buf.length < b := hblen
  replace hcidx : idx = cf.length + 1 := hcidx
  subst hbs hm
  simp only [JSONWriter.writeObject]
  split
  · next hfl =>
    have hfull : (buf ++ [x]).length = b := by
      simp only [List.length_append, List.length_cons, List.length_nil] at hfl ⊢
      exact le_antisymm (by omega) (by exact_mod_cast hfl)
    cases cur with
    | some c =>
      obtain ⟨hck, hcnt, -⟩ := hcur c rfl
      replace hcnt : cnt = (c.length : Int) := hcnt
      subst hcnt
      exact JSONWriter.good_flush_some k b hk hb cf c idx (buf ++ [x]) hfull hck hsizes hidx hcidx
    | none =>
      rw [JSONWriter.flush_none]
      exact JSONWriter.good_flush_some k b hk hb cf [] idx (buf ++ [x]) hfull
        (by simpa using hk) hsizes hidx hcidx
  · next hfl =>
    refine ⟨rfl, rfl, ?_, hcur, hsizes, hidx, hcidx⟩
    have hfl' : ¬ ((b : Int) ≤ ((buf ++ [x]).length : Int)) := hfl
    have hlt : (buf ++ [x]).length < b := by exact_mod_cast not_le.mp hfl'
    exact hlt

theorem JSONWriter.good_writeAll (k b : Nat) (hk : 0 < k) (hb : 0 < b)
    (s : JSONWriter α) (hg : s.Good k b) (xs : List α) : (s.writeAll xs).Good k b := by
  induction xs generalizing s with
  | nil => exact hg
  | cons x xs ih => exact ih _ (JSONWriter.good_writeObject k b hk hb s hg x)

theorem zip_map_fst_snd_eq (l : List (Nat × List α)) :
    (l.map Prod.fst).zip (l.map Prod.snd) = l := by
  induction l with
  | nil => rfl
  | cons a t ih => simp [ih]

/-- Closing a freshly constructed capped writer after writing `xs` finalizes
exactly the `k`-chunks of `xs`, with part indices `1, 2, …`. -/
theorem JSONWriter.run_chunks (k b : Nat) (hk : 0 < k) (hb : 0 < b) (xs : List α) :
    ((JSONWriter.initState α (k : Int) (b : Int)).writeAll xs).close.closedFiles
      = (List.range' 1 (chunkList k xs).length).zip (chunkList k xs) := by
  set s := (JSONWriter.initState α (k : Int) (b : Int)).writeAll xs with hs
  have hg : s.Good k b :=
    JSONWriter.good_writeAll k b hk hb _ (JSONWriter.good_init k b hb) xs
  have hrec : s.recordsOf = xs := by
    rw [hs, JSONWriter.recordsOf_writeAll]
    simp [JSONWriter.recordsOf, JSONWriter.initState]
  have hclose := JSONWriter.close_chunks k b hk hb s.buffer.length s le_rfl hg.hbs hg.hm
    (fun c hc => by
      obtain ⟨h1, h2, h3⟩ := hg.hcur c hc
      exact ⟨h1, h2, Or.inl h3⟩)
  have hx : xs = (s.closedFiles.map Prod.snd).flatten ++ (s.currentFile.getD [] ++ s.buffer) := by
    rw [← hrec]
    simp [JSONWriter.recordsOf, List.append_assoc]
  rw [hclose, hx, chunkList_full_prefix k hk _ _ (by
    intro f hf
    obtain ⟨g, hg', rfl⟩ := List.mem_map.mp hf
    exact hg.hsizes g hg')]
  rw [List.length_append, range'_split 1 (s.closedFiles.map Prod.snd).length
    (chunkList k (s.currentFile.getD [] ++ s.buffer)).length]
  rw [List.zip_append (by simp)]
  have h1 : (List.range' 1 (s.closedFiles.map Prod.snd).length).zip
      (s.closedFiles.map Prod.snd) = s.closedFiles := by
    have hlen : (s.closedFiles.map Prod.snd).length = s.closedFiles.length := by simp
    rw [hlen, ← hg.hidx]
    exact zip_map_fst_snd_eq s.closedFiles
  rw [h1]
  have h2 : 1 + (s.closedFiles.map Prod.snd).length = s.currentFileIndex := by
    rw [hg.hcidx]
    simp [Nat.add_comm]
  rw [h2]

/-- **C5** (confirmed): for every Chunked Writer configured with a per-file
record cap `k > 0` (and any valid flush-buffer size `b > 0`), writing `N > k`
records and closing yields exactly `⌈N/k⌉` output files; every file except
possibly the last contains exactly `k` records (no file exceeds `k` or is
empty); the part indices increment by one per rollover (`1, 2, …`); and the
files together contain exactly the written records in order. -/
theorem chunked_writer_sharding (k b : Nat) (hk : 0 < k) (hb : 0 < b)
    (xs : List α) (hN : k < xs.length) :
    ((JSONWriter.initState α (k : Int) (b : Int)).writeAll xs).close.closedFiles.length
        = (xs.length + k - 1) / k ∧
    (∀ f ∈ ((JSONWriter.initState α (k : Int) (b : Int)).writeAll
        xs).close.closedFiles.dropLast, (f.2).length = k) ∧
    (∀ f ∈ ((JSONWriter.initState α (k : Int) (b : Int)).writeAll xs).close.closedFiles,
        (f.2).length ≤ k ∧ f.2 ≠ []) ∧
    ((JSONWriter.initState α (k : Int) (b : Int)).writeAll xs).close.closedFiles.map Prod.fst
        = List.range' 1
            (((JSONWriter.initState α (k : Int) (b : Int)).writeAll
              xs).close.closedFiles.length) ∧
    (((JSONWriter.initState α (k : Int) (b : Int)).writeAll
        xs).close.closedFiles.map Prod.snd).flatten = xs := by
  rw [JSONWriter.run_chunks k b hk hb xs]
  have hrlen : (List.range' 1 (chunkList k xs).length).length = (chunkList k xs).length := by
    simp [List.length_range']
  have hsnd : ((List.range' 1 (chunkList k xs).length).zip (chunkList k xs)).map Prod.snd
      = chunkList k xs :=
    List.map_snd_zip _ _ (le_of_eq hrlen.symm)
  have hzlen : ((List.range' 1 (chunkList k xs).length).zip (chunkList k xs)).length
      = (chunkList k xs).length := by
    simp [List.length_zip, List.length_range']
  refine ⟨?_, ?_, ?_, ?_, ?_⟩
  · rw [hzlen, chunkList_length k hk xs]
  · intro f hf
    have hml : (((List.range' 1 (chunkList k xs).length).zip
        (chunkList k xs)).dropLast).map Prod.snd = (chunkList k xs).dropLast := by
      rw [List.map_dropLast, hsnd]
    have : f.2 ∈ (chunkList k xs).dropLast := by
      rw [← hml]
      exact List.mem_map_of_mem Prod.snd hf
    exact chunkList_dropLast k hk xs f.2 this
  · intro f hf
    obtain ⟨i, c⟩ := f
    have hc : c ∈ chunkList k xs := (List.of_mem_zip hf).2
    obtain ⟨h1, h2⟩ := chunkList_mem k hk xs c hc
    exact ⟨h2, h1⟩
  · rw [hzlen]
    exact List.map_fst_zip _ _ (le_of_eq hrlen)
  · rw [hsnd]
    exact chunkList_join k hk xs

/-- Concrete instance of `chunked_writer_sharding`: cap 2, buffer 3, five
records give three files split 2/2/1 with parts 1,2,3. -/
theorem chunked_writer_sharding_witness :
    (0 : Nat) < 2 ∧ (0 : Nat) < 3 ∧ 2 < ([0, 1, 2, 3, 4] : List Nat).length ∧
    (((JSONWriter.initState Nat 2 3).writeAll [0, 1, 2, 3, 4]).close.closedFiles.length
        = (([0, 1, 2, 3, 4] : List Nat).length + 2 - 1) / 2 ∧
      (∀ f ∈ ((JSONWriter.initState Nat 2 3).writeAll
          [0, 1, 2, 3, 4]).close.closedFiles.dropLast, (f.2).length = 2) ∧
      (∀ f ∈ ((JSONWriter.initState Nat 2 3).writeAll [0, 1, 2, 3, 4]).close.closedFiles,
          (f.2).length ≤ 2 ∧ f.2 ≠ []) ∧
      ((JSONWriter.initState Nat 2 3).writeAll [0, 1, 2, 3, 4]).close.closedFiles.map Prod.fst
          = List.range' 1
              (((JSONWriter.initState Nat 2 3).writeAll
                [0, 1, 2, 3, 4]).close.closedFiles.length) ∧
      (((JSONWriter.initState Nat 2 3).writeAll
          [0, 1, 2, 3, 4]).close.closedFiles.map Prod.snd).flatten = [0, 1, 2, 3, 4]) :=
  ⟨by decide, by decide, by decide,
    chunked_writer_sharding 2 3 (by decide) (by decide) [0, 1, 2, 3, 4] (by decide)⟩

/-! ### Idempotence of `close` -/

/-- Progress conditions satisfied by every writer state reachable from a
constructor-validated writer (capped or uncapped): the flush threshold is
positive, and on a capped writer an open file's counter stays below the cap
(the flush that reaches the cap finalizes the file). -/
structure JSONWriter.Prog (s : JSONWriter α) : Prop where
  hbs : 1 ≤ s.bufferSize
  hcnt : 0 < s.maxFileObjects → s.currentFile.isSome = true →
    s.currentFileObjects < s.maxFileObjects

/-- `_flush_buffer` keeps the progress conditions, keeps the configuration,
and strictly shrinks a non-empty buffer. -/
theorem JSONWriter.flush_prog (s : JSONWriter α) (hp : s.Prog) :
    (s.flushBuffer).Prog ∧ (s.flushBuffer).bufferSize = s.bufferSize ∧
    (s.flushBuffer).maxFileObjects = s.maxFileObjects ∧
    (s.buffer ≠ [] → (s.flushBuffer).buffer.length < s.buffer.length) := by
  obtain ⟨hbs, hcnt⟩ := hp
  rcases s with ⟨cf, cur, idx, cnt, buf, mfo, bs⟩
  replace hbs : 1 ≤ bs := hbs
  have hbufne : ∀ m : Int, 1 ≤ m → buf ≠ [] → (buf.drop m.toNat).length < buf.length := by
    intro m hm hne
    have : 1 ≤ buf.length := by
      cases buf with
      | nil => exact absurd rfl hne
      | cons u v => simp
    simp only [List.length_drop]
    omega
  cases cur with
  | none =>
    simp only [JSONWriter.flushBuffer, Option.map_some']
    by_cases hcap : (0 : Int) < mfo
    · rw [if_pos hcap]
      split
    -- file finalized at the cap
      · refine ⟨⟨hbs, by simp⟩, rfl, rfl, ?_⟩
        intro hne
        exact hbufne _ (by omega) hne
      · next hcl =>
        refine ⟨⟨hbs, ?_⟩, rfl, rfl, ?_⟩
        · intro h1 _
          simp only
          omega
        · intro hne
          exact hbufne _ (by omega) hne
    · rw [if_neg hcap]
      rw [if_neg (fun h => hcap h.2)]
      refine ⟨⟨hbs, fun h1 => absurd h1 hcap⟩, rfl, rfl, fun hne => hbufne _ (by omega) hne⟩
  | some c =>
    have hopen : (0 : Int) < mfo → cnt < mfo := fun h => hcnt h rfl
    simp only [JSONWriter.flushBuffer, Option.map_some']
    by_cases hcap : (0 : Int) < mfo
    · have hcnt' : cnt < mfo := hopen hcap
      rw [if_pos hcap]
      split
      · refine ⟨⟨hbs, by simp⟩, rfl, rfl, ?_⟩
        intro hne
        exact hbufne _ (by omega) hne
      · next hcl =>
        refine ⟨⟨hbs, ?_⟩, rfl, rfl, ?_⟩
        · intro h1 _
          simp only
          omega
        · intro hne
          exact hbufne _ (by omega) hne
    · rw [if_neg hcap]
      rw [if_neg (fun h => hcap h.2)]
      refine ⟨⟨hbs, fun h1 => absurd h1 hcap⟩, rfl, rfl, fun hne => hbufne _ (by omega) hne⟩

/-- After the flush loop and finalization of `close`, the buffer is empty and
no file is open. -/
theorem JSONWriter.close_resets :
    ∀ (n : Nat) (s : JSONWriter α), s.buffer.length ≤ n → s.Prog →
      s.close.buffer = [] ∧ s.close.currentFile = none := by
  intro n
  induction n with
  | zero =>
    intro s hlen _
    have hbuf : s.buffer = [] := List.eq_nil_of_length_eq_zero (by omega)
    rw [JSONWriter.close, JSONWriter.closeLoop_nil s hbuf]
    cases hc : s.currentFile <;> simp [JSONWriter.closeFinal, hc, hbuf]
  | succ n ih =>
    intro s hlen hp
    cases hbuf : s.buffer with
    | nil =>
      rw [JSONWriter.close, JSONWriter.closeLoop_nil s hbuf]
      cases hc : s.currentFile <;> simp [JSONWriter.closeFinal, hc, hbuf]
    | cons a t =>
      obtain ⟨hp', hbs', hm', hdec⟩ := JSONWriter.flush_prog s hp
      have hdec' := hdec (by simp [hbuf])
      rw [JSONWriter.close_step s (by simp [hbuf]) hdec']
      exact ih s.flushBuffer
        (by rw [hbuf] at hdec' hlen; simp at hdec' hlen; omega) hp'

/-- `close` is idempotent on any state satisfying the progress conditions. -/
theorem JSONWriter.close_close (s : JSONWriter α) (hp : s.Prog) :
    s.close.close = s.close := by
  obtain ⟨hb0, hcur0⟩ := JSONWriter.close_resets s.buffer.length s le_rfl hp
  conv_lhs => rw [JSONWriter.close]
  rw [JSONWriter.closeLoop_nil _ hb0]
  simp [JSONWriter.closeFinal, hcur0]

theorem JSONWriter.prog_init (cap bsz : Int) (hb : 1 ≤ bsz) :
    (JSONWriter.initState α cap bsz).Prog :=
  ⟨hb, by simp [JSONWriter.initState]⟩

theorem JSONWriter.prog_writeObject (s : JSONWriter α) (hp : s.Prog) (x : α) :
    (s.writeObject x).Prog := by
  simp only [JSONWriter.writeObject]
  split
  · exact (JSONWriter.flush_prog { s with buffer := s.buffer ++ [x] } ⟨hp.hbs, hp.hcnt⟩).1
  · exact ⟨hp.hbs, hp.hcnt⟩

theorem JSONWriter.prog_writeAll (s : JSONWriter α) (hp : s.Prog) (xs : List α) :
    (s.writeAll xs).Prog := by
  induction xs generalizing s with
  | nil => exact hp
  | cons x xs ih => exact ih _ (JSONWriter.prog_writeObject s hp x)

/-- **C8** (confirmed): on any Chunked Writer reachable from construction
(any cap, validated buffer size) a second `close()` leaves the writer state —
finalized files included — exactly as the first `close()` left it: no records
are written again and no file is altered. -/
theorem chunked_writer_close_idempotent (cap bsz : Int) (hb : 1 ≤ bsz) (xs : List α) :
    ((JSONWriter.initState α cap bsz).writeAll xs).close.close
      = ((JSONWriter.initState α cap bsz).writeAll xs).close :=
  JSONWriter.close_close _
    (JSONWriter.prog_writeAll _ (JSONWriter.prog_init cap bsz hb) xs)

/-- Concrete instance of `chunked_writer_close_idempotent` (cap 2, buffer
size 1, three records). -/
theorem chunked_writer_close_idempotent_witness :
    (1 : Int) ≤ 1 ∧
    ((JSONWriter.initState Nat 2 1).writeAll [5, 6, 7]).close.close
      = ((JSONWriter.initState Nat 2 1).writeAll [5, 6, 7]).close :=
  ⟨by decide, chunked_writer_close_idempotent 2 1 (by decide) [5, 6, 7]⟩

/-! ## Streaming reader (`src/core/file/readers.py`, class `JSONReader`)

State of an iterating reader (after `__iter__`): the record sequences of the
located source files, the index of the open file, and the records its `ijson`
parser has not yet produced.  The `OSError` branch of `__next__` (an I/O
error on a source file) is outside this model: reading a well-formed record
sequence either yields the next record or raises `StopIteration`. -/

structure JSONReader (α : Type) where
  file_paths : List (List α)
  file_index : Nat
  parserRest : List α
  deriving Repr, DecidableEq

/-- `iter(reader)`: reset to the first file and open it. -/
def JSONReader.iterStart (files : List (List α)) : JSONReader α :=
  ⟨files, 0, files.getD 0 []⟩

/-- `JSONReader.__next__`: the next record of the open file; on
`StopIteration` from the parser, move to the next file and continue;
`none` models the `StopIteration` raised after the last file. -/
def JSONReader.next (s : JSONReader α) : Option (α × JSONReader α) :=
  match s with
  | ⟨files, idx, r :: rest⟩ => some (r, ⟨files, idx, rest⟩)
  | ⟨files, idx, []⟩ =>
    if _h : idx + 1 < files.length then
      JSONReader.next ⟨files, idx + 1, files.getD (idx + 1) []⟩
    else none
termination_by s.file_paths.length - s.file_index
decreasing_by simp; omega

/-- `JSONReader.read_batch(batch_size)`, i.e.
`tuple(next(self) for _ in range(batch_size))`.  Under PEP 479 (Python ≥ 3.7)
a `StopIteration` raised by `next(self)` inside the generator expression is
replaced by `RuntimeError("generator raised StopIteration")`, which
propagates out of `tuple(...)` to the caller. -/
def JSONReader.read_batch (s : JSONReader α) (batch_size : Nat) :
    Except String (List α × JSONReader α) :=
  match batch_size with
  | 0 => .ok ([], s)
  | n + 1 =>
    match JSONReader.next s with
    | none => .error "generator raised StopIteration"
    | some (r, s') =>
      (JSONReader.read_batch s' n).map (fun p => (r :: p.1, p.2))

/-- Number of records the iteration has not yet produced. -/
def JSONReader.remaining (s : JSONReader α) : Nat :=
  s.parserRest.length + ((s.file_paths.drop (s.file_index + 1)).map List.length).sum

/-! ## Pool controller and workers (`src/util/parallel.py`, class
`Multiprocessor`) -/

/-- Constructor-time configuration of a `Multiprocessor`.  The transformation
`process_function` either raises (`.error` with the exception text) or
returns `None` (`.ok none`) or an ordered collection of per-channel values.
A worker appends one value per channel per unit, so the collection is a
`List R` indexed by channel. -/
structure MPConfig (U R : Type) where
  process_function : U → Except String (Option (List R))
  workers : Int
  output_file_names : List String
  buffer_size : Int

/-- `Multiprocessor.__init__` (lines 27–41): pure field assignment.  The
constructor validates nothing — any worker count (negative included) and any
buffer size are accepted — and performs no file I/O; it never raises.  The
`Except` result type represents the constructor's ability to raise; the body
shows that it does not.  The un-started state is `self._state = None`. -/
def Multiprocessor.init (process_function : U → Except String (Option (List R)))
    (workers : Int) (output_file_names : List String) (buffer_size : Int) :
    Except String (MPConfig U R × Option (List (List U))) :=
  .ok ({ process_function := process_function
         workers := workers
         output_file_names := output_file_names
         buffer_size := buffer_size }, none)

/-- The worker ids `start` spawns processes for:
`for worker_id in range(self.workers)` — empty when `workers ≤ 0`. -/
def Multiprocessor.startWorkerIds (workers : Int) : List Nat :=
  List.range workers.toNat

/-- Per-channel state inside `_worker_function`: the records already pickled
into the shard file, the in-memory buffer `worker_buffers[i]`, and the
countdown `worker_buffers_size[i]` (reset to `buffer_size` after a dump). -/
structure ChannelBuf (R : Type) where
  fileContents : List R
  buffer : List R
  countdown : Int

/-- Appending one result value to a channel (worker loop, lines 85–102):
push it onto the buffer, decrement the countdown, and dump the whole buffer
to the shard file once the countdown falls below 1. -/
def Multiprocessor.writeResult (buffer_size : Int) (cb : ChannelBuf R) (v : R) : ChannelBuf R :=
  let cb := { cb with buffer := cb.buffer ++ [v], countdown := cb.countdown - 1 }
  if cb.countdown < 1 then
    { fileContents := cb.fileContents ++ cb.buffer, buffer := [], countdown := buffer_size }
  else cb

/-- The `for i in range(min(len(worker_output_files), len(output_value)))`
loop: value `i` goes to channel `i`; extra values are ignored, missing
trailing values leave their channels untouched. -/
def Multiprocessor.writeOutputs (buffer_size : Int) :
    List (ChannelBuf R) → List R → List (ChannelBuf R)
  | chs, [] => chs
  | [], _ => []
  | cb :: chs, v :: vs =>
      Multiprocessor.writeResult buffer_size cb v ::
        Multiprocessor.writeOutputs buffer_size chs vs

/-- One iteration of the worker loop (lines 68–104) on a unit: an exception
from the transformation is logged at ERROR severity
(`worker_logger.error(str(ex))`) and the unit dropped before anything is
written; a `None` result writes nothing; otherwise the per-channel values are
buffered/written.  The `String` list accumulates the ERROR log. -/
def Multiprocessor.workerStep (cfg : MPConfig U R)
    (st : List (ChannelBuf R) × List String) (u : U) :
    List (ChannelBuf R) × List String :=
  match cfg.process_function u with
  | .error e => (st.1, st.2 ++ [e])
  | .ok none => st
  | .ok (some vals) => (Multiprocessor.writeOutputs cfg.buffer_size st.1 vals, st.2)

/-- `Multiprocessor._worker_function` on the units this worker consumes
before its sentinel: the main loop, then the final dump of all non-empty
buffers (lines 105–118).  Returns each channel's shard-file contents (the
worker then publishes the shard paths on the result queue exactly once) and
the worker's ERROR log. -/
def Multiprocessor.workerRun (cfg : MPConfig U R) (inputs : List U) :
    List (List R) × List String :=
  let start := (List.replicate cfg.output_file_names.length
      (⟨[], [], cfg.buffer_size⟩ : ChannelBuf R), ([] : List String))
  let fin := inputs.foldl (Multiprocessor.workerStep cfg) start
  (fin.1.map (fun cb => cb.fileContents ++ cb.buffer), fin.2)

/-- Outcome of one `unpickler.load()` call during the merge in `close`
(lines 196–203): a record, an `EOFError` (the only exception the loop
catches), or any other exception. -/
inductive LoadEvent (R : Type) where
  | val (r : R)
  | eof
  | err (msg : String)
  deriving Repr, DecidableEq

/-- The `while not reached_eof` transfer loop for one shard file: each loaded
record is re-pickled into the final file and counted; an `EOFError` ends the
file silently; any other exception propagates (neither this loop nor `close`
has a handler for it).  Exhausting the event list is physical end-of-file,
which `unpickler.load()` reports as `EOFError`. -/
def Multiprocessor.transferRecords : List (LoadEvent R) → Except String (List R)
  | [] => .ok []
  | .eof :: _ => .ok []
  | .err m :: _ => .error m
  | .val r :: evs => (Multiprocessor.transferRecords evs).map (fun rs => r :: rs)

/-- The final-output directory, as an association list from file name to the
records of the file's bz2 pickle stream. -/
abbrev FileSys (R : Type) := List (String × List R)

def fsRead (fs : FileSys R) (name : String) : Option (List R) :=
  match fs with
  | [] => none
  | (m, d) :: fs => if m = name then some d else fsRead fs name

/-- `bz2.BZ2File(path, "wb")`: create the file, truncating any existing one. -/
def fsWrite (fs : FileSys R) (name : String) (contents : List R) : FileSys R :=
  match fs with
  | [] => [(name, contents)]
  | (m, d) :: fs =>
      if m = name then (name, contents) :: fs else (m, d) :: fsWrite fs name contents

/-- `bz2.BZ2File(path, "ab")`: append to the file, creating it if absent. -/
def fsAppend (fs : FileSys R) (name : String) (recs : List R) : FileSys R :=
  match fsRead fs name with
  | some old => fsWrite fs name (old ++ recs)
  | none => fsWrite fs name recs

/-- `accumulated_records[i] += n` with the `IndexError` fallback that first
extends the list with zeros (`close`, lines 205–209). -/
def Multiprocessor.accumAdd (acc : List Nat) (i : Nat) (n : Nat) : List Nat :=
  if i < acc.length then acc.set i (acc.getD i 0 + n)
  else
    let acc2 := acc ++ List.replicate (i - acc.length + 1) 0
    acc2.set i (acc2.getD i 0 + n)

/-- The `for i in range(min(len(self.output_file_names), len(output_files)))`
loop of `close` (lines 189–209) over the remaining channel indices: transfer
shard `i` into final output `i` (appending), delete the shard, and add the
transferred count to `accumulated_records[i]`.  An uncaught transfer
exception aborts `close`; the partially-updated directory state at that point
is not modelled further (no claim concerns it). -/
def Multiprocessor.mergeChannels (outNames : List String)
    (files : List (List (LoadEvent R))) :
    List Nat × FileSys R → List Nat → Except String (List Nat × FileSys R)
  | st, [] => .ok st
  | st, i :: rest =>
    match Multiprocessor.transferRecords (files.getD i []) with
    | .error m => .error m
    | .ok rs =>
      Multiprocessor.mergeChannels outNames files
        (Multiprocessor.accumAdd st.1 i rs.length,
         fsAppend st.2 (outNames.getD i "") rs) rest

/-- Merging one worker's published shard files. -/
def Multiprocessor.mergeWorker (outNames : List String)
    (st : List Nat × FileSys R) (files : List (List (LoadEvent R))) :
    Except String (List Nat × FileSys R) :=
  Multiprocessor.mergeChannels outNames files st
    (List.range (min outNames.length files.length))

/-- The merge phase of `close` on a started pool (lines 185–209): first
create/truncate every declared final output file, then drain the result
queue — `published` lists, in queue-arrival order, each worker's per-channel
shard files as their load-event streams — merging each worker's shards and
accumulating per-channel counts. -/
def Multiprocessor.mergeClose (outNames : List String) (fs0 : FileSys R)
    (published : List (List (List (LoadEvent R)))) :
    Except String (List Nat × FileSys R) :=
  let fs := outNames.foldl (fun acc n => fsWrite acc n []) fs0
  published.foldlM (fun st files => Multiprocessor.mergeWorker outNames st files) ([], fs)

/-- A shard file that pickled the records `rs` and was closed normally reads
back as those records followed by physical end-of-file. -/
def wellFormedEvents (rs : List R) : List (LoadEvent R) :=
  rs.map LoadEvent.val

/-- `Multiprocessor.close` (lines 171–211).  With `self._state is None`
(never started, or closed before) the whole body is skipped: no file is
touched, the empty count list is returned and the controller stays
un-started.  On a started pool, the workers are joined — worker `w` having
consumed the units `assign[w]`, a scheduling-dependent partition of the fed
units — and their shard files are merged; `self._state` is reset to `None`
either way.  `fs0` is the final-output directory before the call. -/
def Multiprocessor.close (cfg : MPConfig U R) (state : Option (List (List U)))
    (fs0 : FileSys R) :
    Except String (Option (List (List U)) × List Nat × FileSys R) :=
  match state with
  | none => .ok (none, [], fs0)
  | some assign =>
    let published := assign.map (fun inputs =>
      ((Multiprocessor.workerRun cfg inputs).1).map wellFormedEvents)
    (Multiprocessor.mergeClose cfg.output_file_names fs0 published).map
      (fun r => (none, r.1, r.2))

/-- A full `start(); feed(u) for u in units; close()` run of a pool whose
workers consume the partition `assign` of the fed units (which worker
consumes which unit is scheduling-dependent; theorems quantify over the
partition).  Returns the per-channel counts, the final-output directory and
the concatenated worker ERROR logs. -/
def Multiprocessor.fullRun (cfg : MPConfig U R) (assign : List (List U))
    (fs0 : FileSys R) : Except String (List Nat × FileSys R × List String) :=
  let logs := (assign.map (fun inputs => (Multiprocessor.workerRun cfg inputs).2)).flatten
  (Multiprocessor.close cfg (some assign) fs0).map (fun r => (r.2.1, r.2.2, logs))

/-! ### What a worker writes -/

/-- The records a worker writes to channel `i`: one per unit whose
transformation succeeds with more than `i` per-channel values, in order. -/
def Multiprocessor.channelOutput (cfg : MPConfig U R) (i : Nat) (inputs : List U) : List R :=
  inputs.filterMap (fun u =>
    match cfg.process_function u with
    | .ok (some vals) => vals[i]?
    | _ => none)

/-- The ERROR log of a worker run: one entry per raising unit, in order. -/
def Multiprocessor.errorsOf (cfg : MPConfig U R) (inputs : List U) : List String :=
  inputs.filterMap (fun u =>
    match cfg.process_function u with
    | .error e => some e
    | _ => none)

theorem Multiprocessor.writeResult_data (bsz : Int) (cb : ChannelBuf R) (v : R) :
    (Multiprocessor.writeResult bsz cb v).fileContents
        ++ (Multiprocessor.writeResult bsz cb v).buffer
      = cb.fileContents ++ cb.buffer ++ [v] := by
  simp only [Multiprocessor.writeResult]
  split <;> simp

theorem Multiprocessor.writeOutputs_length (bsz : Int) :
    ∀ (chs : List (ChannelBuf R)) (vs : List R),
      (Multiprocessor.writeOutputs bsz chs vs).length = chs.length := by
  intro chs
  induction chs with
  | nil => intro vs; cases vs <;> rfl
  | cons cb chs ih => intro vs; cases vs <;> simp [Multiprocessor.writeOutputs, ih]

theorem Multiprocessor.writeOutputs_getElem (bsz : Int) :
    ∀ (chs : List (ChannelBuf R)) (vs : List R) (i : Nat),
      (Multiprocessor.writeOutputs bsz chs vs)[i]?
        = (chs[i]?).map (fun cb =>
            match vs[i]? with
            | some v => Multiprocessor.writeResult bsz cb v
            | none => cb) := by
  intro chs
  induction chs with
  | nil => intro vs i; cases vs <;> simp [Multiprocessor.writeOutputs]
  | cons cb chs ih =>
    intro vs i
    cases vs with
    | nil =>
      simp only [Multiprocessor.writeOutputs]
      cases (cb :: chs)[i]? <;> simp
    | cons v vs =>
      cases i with
      | zero => simp [Multiprocessor.writeOutputs]
      | succ i => simp [Multiprocessor.writeOutputs, ih]

/-- Cumulative effect of the worker loop from an arbitrary channel/log state:
channel count is preserved, each channel's data grows by its
`channelOutput`, and the log grows by `errorsOf`. -/
theorem Multiprocessor.workerFold_spec (cfg : MPConfig U R) :
    ∀ (inputs : List U) (chs : List (ChannelBuf R)) (logs : List String),
      (inputs.foldl (Multiprocessor.workerStep cfg) (chs, logs)).1.length = chs.length ∧
      (∀ i, ((inputs.foldl (Multiprocessor.workerStep cfg) (chs, logs)).1[i]?).map
          (fun cb => cb.fileContents ++ cb.buffer)
        = (chs[i]?).map (fun cb =>
            cb.fileContents ++ cb.buffer ++ Multiprocessor.channelOutput cfg i inputs)) ∧
      (inputs.foldl (Multiprocessor.workerStep cfg) (chs, logs)).2
        = logs ++ Multiprocessor.errorsOf cfg inputs := by
  intro inputs
  induction inputs with
  | nil =>
    intro chs logs
    refine ⟨rfl, ?_, by simp [Multiprocessor.errorsOf]⟩
    intro i
    simp [Multiprocessor.channelOutput]
  | cons u us ih =>
    intro chs logs
    simp only [List.foldl_cons]
    cases hf : cfg.process_function u with
    | error e =>
      have hstep : Multiprocessor.workerStep cfg (chs, logs) u = (chs, logs ++ [e]) := by
        simp [Multiprocessor.workerStep, hf]
      rw [hstep]
      obtain ⟨h1, h2, h3⟩ := ih chs (logs ++ [e])
      refine ⟨h1, ?_, ?_⟩
      · intro i
        rw [h2 i]
        have hco : Multiprocessor.channelOutput cfg i (u :: us)
            = Multiprocessor.channelOutput cfg i us := by
          simp [Multiprocessor.channelOutput, List.filterMap_cons, hf]
        rw [hco]
      · rw [h3]
        have he : Multiprocessor.errorsOf cfg (u :: us)
            = e :: Multiprocessor.errorsOf cfg us := by
          simp [Multiprocessor.errorsOf, List.filterMap_cons, hf]
        rw [he]
        simp
    | ok res =>
      cases res with
      | none =>
        have hstep : Multiprocessor.workerStep cfg (chs, logs) u = (chs, logs) := by
          simp [Multiprocessor.workerStep, hf]
        rw [hstep]
        obtain ⟨h1, h2, h3⟩ := ih chs logs
        refine ⟨h1, ?_, ?_⟩
        · intro i
          rw [h2 i]
          have hco : Multiprocessor.channelOutput cfg i (u :: us)
              = Multiprocessor.channelOutput cfg i us := by
            simp [Multiprocessor.channelOutput, List.filterMap_cons, hf]
          rw [hco]
        · rw [h3]
          have he : Multiprocessor.errorsOf cfg (u :: us)
              = Multiprocessor.errorsOf cfg us := by
            simp [Multiprocessor.errorsOf, List.filterMap_cons, hf]
          rw [he]
      | some vals =>
        have hstep : Multiprocessor.workerStep cfg (chs, logs) u
            = (Multiprocessor.writeOutputs cfg.buffer_size chs vals, logs) := by
          simp [Multiprocessor.workerStep, hf]
        rw [hstep]
        obtain ⟨h1, h2, h3⟩ := ih (Multiprocessor.writeOutputs cfg.buffer_size chs vals) logs
        refine ⟨by rw [h1, Multiprocessor.writeOutputs_length], ?_, ?_⟩
        · intro i
          rw [h2 i, Multiprocessor.writeOutputs_getElem]
          cases hci : chs[i]? with
          | none => simp
          | some cb =>
            simp only [Option.map_some']
            cases hvi : vals[i]? with
            | none =>
              have hco : Multiprocessor.channelOutput cfg i (u :: us)
                  = Multiprocessor.channelOutput cfg i us := by
                simp [Multiprocessor.channelOutput, List.filterMap_cons, hf, hvi]
              simp only [hco]
            | some v =>
              have hco : Multiprocessor.channelOutput cfg i (u :: us)
                  = v :: Multiprocessor.channelOutput cfg i us := by
                simp [Multiprocessor.channelOutput, List.filterMap_cons, hf, hvi]
              simp only [hco, Multiprocessor.writeResult_data]
              simp
        · rw [h3]
          have he : Multiprocessor.errorsOf cfg (u :: us)
              = Multiprocessor.errorsOf cfg us := by
            simp [Multiprocessor.errorsOf, List.filterMap_cons, hf]
          rw [he]

/-- The shard files a worker publishes: one per declared channel, containing
exactly that channel's `channelOutput`; the ERROR log is `errorsOf`. -/
theorem Multiprocessor.workerRun_spec (cfg : MPConfig U R) (inputs : List U) :
    (Multiprocessor.workerRun cfg inputs).1.length = cfg.output_file_names.length ∧
    (∀ i, i < cfg.output_file_names.length →
      (Multiprocessor.workerRun cfg inputs).1[i]?
        = some (Multiprocessor.channelOutput cfg i inputs)) ∧
    (Multiprocessor.workerRun cfg inputs).2 = Multiprocessor.errorsOf cfg inputs := by
  obtain ⟨h1, h2, h3⟩ := Multiprocessor.workerFold_spec cfg inputs
    (List.replicate cfg.output_file_names.length ⟨[], [], cfg.buffer_size⟩) []
  refine ⟨?_, ?_, ?_⟩
  · simp [Multiprocessor.workerRun, h1]
  · intro i hi
    simp only [Multiprocessor.workerRun]
    rw [List.getElem?_map, h2 i, List.getElem?_replicate, if_pos hi]
    simp
  · simpa [Multiprocessor.workerRun] using h3

/-! ### The merge phase on intact shard files -/

theorem Multiprocessor.transferRecords_wellFormed (rs : List R) :
    Multiprocessor.transferRecords (wellFormedEvents rs) = .ok rs := by
  induction rs with
  | nil => rfl
  | cons r rs ih =>
    simp only [wellFormedEvents, List.map_cons] at ih ⊢
    simp [Multiprocessor.transferRecords, ih, Except.map]

/-- Per-worker counts accumulation, as a pure fold. -/
def Multiprocessor.countsStep (C : Nat) (acc : List Nat) (shards : List (List R)) : List Nat :=
  (List.range C).foldl
    (fun a i => Multiprocessor.accumAdd a i (shards.getD i []).length) acc

/-- Per-worker final-file appends, as a pure fold. -/
def Multiprocessor.fsStep (outNames : List String) (f : FileSys R)
    (shards : List (List R)) : FileSys R :=
  (List.range outNames.length).foldl
    (fun f i => fsAppend f (outNames.getD i "") (shards.getD i [])) f

theorem Multiprocessor.mergeChannels_wellFormed (outNames : List String)
    (shards : List (List R)) :
    ∀ (idxs : List Nat) (st : List Nat × FileSys R),
      Multiprocessor.mergeChannels outNames (shards.map wellFormedEvents) st idxs
        = .ok (idxs.foldl
                (fun a i => Multiprocessor.accumAdd a i (shards.getD i []).length) st.1,
               idxs.foldl
                (fun f i => fsAppend f (outNames.getD i "") (shards.getD i [])) st.2) := by
  intro idxs
  induction idxs with
  | nil => intro st; rfl
  | cons i rest ih =>
    intro st
    have hmap : (shards.map wellFormedEvents).getD i []
        = wellFormedEvents (shards.getD i []) := by
      rw [List.getD_eq_getElem?_getD, List.getD_eq_getElem?_getD, List.getElem?_map]
      cases shards[i]? <;> simp [wellFormedEvents]
    have htr : Multiprocessor.transferRecords ((shards.map wellFormedEvents).getD i [])
        = .ok (shards.getD i []) := by
      rw [hmap]
      exact Multiprocessor.transferRecords_wellFormed _
    simp only [Multiprocessor.mergeChannels, htr]
    rw [ih]
    simp

/-- The merge over all workers with intact shard files succeeds, and its
result is the pure double fold of counts and appends. -/
theorem Multiprocessor.mergeClose_wellFormed (outNames : List String) (fs0 : FileSys R) :
    ∀ (allShards : List (List (List R))) (st : List Nat × FileSys R),
      (∀ s ∈ allShards, s.length = outNames.length) →
      (allShards.map (fun s => s.map wellFormedEvents)).foldlM
          (fun st files => Multiprocessor.mergeWorker outNames st files) st
        = .ok (allShards.foldl (Multiprocessor.countsStep outNames.length) st.1,
               allShards.foldl (Multiprocessor.fsStep outNames) st.2) := by
  intro allShards
  induction allShards with
  | nil => intro st _; rfl
  | cons s ws ih =>
    intro st hlen
    simp only [List.map_cons, List.foldlM_cons]
    have hmin : min outNames.length (s.map wellFormedEvents).length = outNames.length := by
      rw [List.length_map, hlen s (by simp)]
      simp
    rw [Multiprocessor.mergeWorker, hmin, Multiprocessor.mergeChannels_wellFormed]
    simp only [Bind.bind, Except.bind]
    rw [ih _ (fun f hf => hlen f (by simp [hf]))]
    rfl

/-! ### The count accumulator -/

theorem Multiprocessor.accumAdd_length (acc : List Nat) (i n : Nat) :
    (Multiprocessor.accumAdd acc i n).length = max acc.length (i + 1) := by
  simp only [Multiprocessor.accumAdd]
  split
  · next hlt =>
    simp only [List.length_set]
    omega
  · next hge =>
    simp only [List.length_set, List.length_append, List.length_replicate]
    omega

theorem Multiprocessor.accumAdd_getD0 (acc : List Nat) (i n : Nat) :
    (Multiprocessor.accumAdd acc i n).getD 0 0
      = acc.getD 0 0 + (if i = 0 then n else 0) := by
  simp only [Multiprocessor.accumAdd]
  split
  · next hlt =>
    rw [List.getD_eq_getElem?_getD, List.getElem?_set]
    by_cases h0 : i = 0
    · subst h0
      rw [if_pos rfl, if_pos hlt]
      simp [List.getD_eq_getElem?_getD]
    · rw [if_neg h0]
      simp [List.getD_eq_getElem?_getD, h0]
  · next hge =>
    have hacc2 : (acc ++ List.replicate (i - acc.length + 1) 0).getD i 0 = 0 := by
      rw [List.getD_eq_getElem?_getD, List.getElem?_append, if_neg (by omega),
        List.getElem?_replicate, if_pos (by omega)]
      simp
    rw [List.getD_eq_getElem?_getD, List.getElem?_set]
    by_cases h0 : i = 0
    · subst h0
      have hnil : acc = [] := List.eq_nil_of_length_eq_zero (by omega)
      subst hnil
      rw [if_pos rfl, if_pos (by simp)]
      simp at hacc2
      simp [hacc2]
    · rw [if_neg h0, List.getElem?_append]
      by_cases hA : 0 < acc.length
      · rw [if_pos hA]
        simp [List.getD_eq_getElem?_getD, h0]
      · have hnil : acc = [] := List.eq_nil_of_length_eq_zero (by omega)
        subst hnil
        rw [if_neg (by simp)]
        rw [List.getElem?_replicate, if_pos (by omega)]
        simp [h0]

theorem Multiprocessor.accumFold_getD0 (shards : List (List R)) :
    ∀ (idxs : List Nat) (a : List Nat),
      (idxs.foldl (fun a i => Multiprocessor.accumAdd a i (shards.getD i []).length) a).getD 0 0
        = a.getD 0 0 + idxs.count 0 * (shards.getD 0 []).length := by
  intro idxs
  induction idxs with
  | nil => intro a; simp
  | cons i rest ih =>
    intro a
    rw [List.foldl_cons, ih, Multiprocessor.accumAdd_getD0]
    by_cases h0 : i = 0
    · subst h0
      simp [List.count_cons]
      ring
    · simp [List.count_cons, h0]

theorem Multiprocessor.accumFold_length_mono (shards : List (List R)) :
    ∀ (idxs : List Nat) (a : List Nat),
      a.length ≤ (idxs.foldl
        (fun a i => Multiprocessor.accumAdd a i (shards.getD i []).length) a).length := by
  intro idxs
  induction idxs with
  | nil => intro a; simp
  | cons i rest ih =>
    intro a
    rw [List.foldl_cons]
    refine le_trans ?_ (ih _)
    rw [Multiprocessor.accumAdd_length]
    omega

theorem Multiprocessor.accumFold_length_mem (shards : List (List R)) :
    ∀ (idxs : List Nat) (a : List Nat) (j : Nat), j ∈ idxs →
      j + 1 ≤ (idxs.foldl
        (fun a i => Multiprocessor.accumAdd a i (shards.getD i []).length) a).length := by
  intro idxs
  induction idxs with
  | nil =>
    intro a j hj
    simp at hj
  | cons i rest ih =>
    intro a j hj
    rw [List.foldl_cons]
    rcases List.mem_cons.mp hj with h | h
    · subst h
      refine le_trans ?_ (Multiprocessor.accumFold_length_mono shards rest _)
      rw [Multiprocessor.accumAdd_length]
      omega
    · exact ih _ j h

theorem Multiprocessor.countsStep_getD0 (C : Nat) (hC : 0 < C) (acc : List Nat)
    (shards : List (List R)) :
    (Multiprocessor.countsStep C acc shards).getD 0 0
      = acc.getD 0 0 + (shards.getD 0 []).length := by
  rw [Multiprocessor.countsStep, Multiprocessor.accumFold_getD0]
  have hcount : (List.range C).count 0 = 1 :=
    List.count_eq_one_of_mem (List.nodup_range C) (List.mem_range.mpr hC)
  rw [hcount, one_mul]

theorem Multiprocessor.countsWorkers_getD0 (C : Nat) (hC : 0 < C) :
    ∀ (ws : List (List (List R))) (acc : List Nat),
      (ws.foldl (Multiprocessor.countsStep C) acc).getD 0 0
        = acc.getD 0 0 + (ws.map (fun s => (s.getD 0 []).length)).sum := by
  intro ws
  induction ws with
  | nil => intro acc; simp
  | cons s rest ih =>
    intro acc
    rw [List.foldl_cons, ih, Multiprocessor.countsStep_getD0 C hC]
    simp [Nat.add_assoc]

theorem Multiprocessor.countsWorkers_length (C : Nat) (hC : 0 < C) :
    ∀ (ws : List (List (List R))) (acc : List Nat), ws ≠ [] →
      1 ≤ (ws.foldl (Multiprocessor.countsStep C) acc).length := by
  intro ws
  induction ws with
  | nil => intro acc h; exact absurd rfl h
  | cons s rest ih =>
    intro acc _
    rw [List.foldl_cons]
    cases rest with
    | nil =>
      exact Multiprocessor.accumFold_length_mem _ _ acc 0 (List.mem_range.mpr hC)
    | cons s2 rest2 => exact ih _ (by simp)

/-- `close` on a started pool: the counts are the double fold of per-channel
shard lengths, and the final files are the truncations followed by the
per-worker appends. -/
theorem Multiprocessor.close_started (cfg : MPConfig U R) (assign : List (List U))
    (fs0 : FileSys R) :
    Multiprocessor.close cfg (some assign) fs0
      = .ok (none,
          (assign.map (fun i => (Multiprocessor.workerRun cfg i).1)).foldl
            (Multiprocessor.countsStep cfg.output_file_names.length) [],
          (assign.map (fun i => (Multiprocessor.workerRun cfg i).1)).foldl
            (Multiprocessor.fsStep cfg.output_file_names)
            (cfg.output_file_names.foldl (fun acc n => fsWrite acc n []) fs0)) := by
  simp only [Multiprocessor.close, Multiprocessor.mergeClose]
  have hmap : assign.map (fun inputs =>
        ((Multiprocessor.workerRun cfg inputs).1).map wellFormedEvents)
      = (assign.map (fun i => (Multiprocessor.workerRun cfg i).1)).map
          (fun s => s.map wellFormedEvents) := by
    rw [List.map_map]
    rfl
  rw [hmap, Multiprocessor.mergeClose_wellFormed cfg.output_file_names fs0 _ _ ?hlen]
  case hlen =>
    intro s hs
    obtain ⟨inputs, _, rfl⟩ := List.mem_map.mp hs
    exact (Multiprocessor.workerRun_spec cfg inputs).1
  rfl

/-- A transformation that succeeds on every unit with a non-empty value list
yields exactly one channel-0 record per unit. -/
theorem Multiprocessor.channelOutput_zero_length (cfg : MPConfig U R) (g : U → List R) :
    ∀ inputs : List U,
      (∀ u ∈ inputs, cfg.process_function u = .ok (some (g u)) ∧ g u ≠ []) →
      (Multiprocessor.channelOutput cfg 0 inputs).length = inputs.length := by
  intro inputs
  induction inputs with
  | nil =>
    intro _
    simp [Multiprocessor.channelOutput]
  | cons u us ih =>
    intro h
    obtain ⟨hu, hne⟩ := h u (by simp)
    cases hgu : g u with
    | nil => exact absurd hgu hne
    | cons v vs =>
      rw [hgu] at hu
      have : Multiprocessor.channelOutput cfg 0 (u :: us)
          = v :: Multiprocessor.channelOutput cfg 0 us := by
        simp [Multiprocessor.channelOutput, List.filterMap_cons, hu]
      rw [this]
      simp only [List.length_cons]
      rw [ih (fun w hw => h w (by simp [hw]))]

/-- **C1** (confirmed): for every started pool with at least one worker and a
declared channel 0, and every distribution of the `N` fed units among the
workers, if the transformation succeeds on every unit and returns (at least)
one value on channel 0, then the per-channel counts returned by `close()`
have channel-0 count exactly `N`. -/
theorem work_conservation (cfg : MPConfig U R) (assign : List (List U))
    (fs0 : FileSys R) (g : U → List R) (hW : assign ≠ [])
    (hC : 0 < cfg.output_file_names.length)
    (hf : ∀ u ∈ assign.flatten, cfg.process_function u = .ok (some (g u)) ∧ g u ≠ []) :
    ∃ counts fs logs, Multiprocessor.fullRun cfg assign fs0 = .ok (counts, fs, logs) ∧
      counts[0]? = some assign.flatten.length := by
  have hclose := Multiprocessor.close_started cfg assign fs0
  refine ⟨_, _, _, by simp only [Multiprocessor.fullRun]; rw [hclose]; rfl, ?_⟩
  set allShards := assign.map (fun i => (Multiprocessor.workerRun cfg i).1) with hAS
  set counts := allShards.foldl
    (Multiprocessor.countsStep cfg.output_file_names.length) [] with hcounts
  have hg0 : counts.getD 0 0 = (allShards.map (fun s => (s.getD 0 []).length)).sum := by
    rw [hcounts, Multiprocessor.countsWorkers_getD0 _ hC]
    simp
  have hsum : (allShards.map (fun s => (s.getD 0 []).length)).sum = assign.flatten.length := by
    rw [hAS, List.map_map, List.length_flatten]
    congr 1
    apply List.map_congr_left
    intro inputs hin
    have hspec := (Multiprocessor.workerRun_spec cfg inputs).2.1 0 hC
    have hget : (Multiprocessor.workerRun cfg inputs).1.getD 0 []
        = Multiprocessor.channelOutput cfg 0 inputs := by
      rw [List.getD_eq_getElem?_getD, hspec]
      rfl
    simp only [Function.comp_apply]
    rw [hget]
    exact Multiprocessor.channelOutput_zero_length cfg g inputs
      (fun u hu => hf u (List.mem_flatten.mpr ⟨inputs, hin, hu⟩))
  have hlen1 : 1 ≤ counts.length := by
    rw [hcounts]
    refine Multiprocessor.countsWorkers_length _ hC allShards [] ?_
    rw [hAS]
    intro hnil
    exact hW (List.map_eq_nil_iff.mp hnil)
  have hidx : counts[0]? = some (counts.getD 0 0) := by
    cases hcc : counts with
    | nil =>
      rw [hcc] at hlen1
      simp at hlen1
    | cons c t => simp [List.getD]
  rw [hidx, hg0, hsum]

/-- Concrete instance of `work_conservation`: two workers, five units split
3/2, identity transformation, one channel — channel-0 count 5. -/
theorem work_conservation_witness :
    ([[0, 1, 2], [3, 4]] : List (List Nat)) ≠ [] ∧
    0 < (["out0"] : List String).length ∧
    (∀ u ∈ ([[0, 1, 2], [3, 4]] : List (List Nat)).flatten,
      (fun u : Nat => Except.ok (ε := String) (some [u])) u = .ok (some [u]) ∧
        ([u] : List Nat) ≠ []) ∧
    ∃ counts fs logs,
      Multiprocessor.fullRun
          (⟨fun u : Nat => Except.ok (some [u]), 2, ["out0"], -1⟩ : MPConfig Nat Nat)
          [[0, 1, 2], [3, 4]] [] = .ok (counts, fs, logs) ∧
      counts[0]? = some ([[0, 1, 2], [3, 4]] : List (List Nat)).flatten.length :=
  ⟨by decide, by decide, by intro u _; exact ⟨rfl, by simp⟩,
    work_conservation
      (⟨fun u : Nat => Except.ok (some [u]), 2, ["out0"], -1⟩ : MPConfig Nat Nat)
      [[0, 1, 2], [3, 4]] [] (fun u => [u]) (by decide) (by decide)
      (by intro u _; exact ⟨rfl, by simp⟩)⟩

/-! ### Dropping a failing unit -/

/-- A unit whose transformation raises contributes to no channel: every
channel's output equals that of the unit stream with the failing unit
filtered out. -/
theorem Multiprocessor.channelOutput_filter_bad [DecidableEq U] (cfg : MPConfig U R)
    (bad : U) (msg : String) (hbad : cfg.process_function bad = .error msg) (i : Nat) :
    ∀ inputs : List U, Multiprocessor.channelOutput cfg i inputs
      = Multiprocessor.channelOutput cfg i (inputs.filter (fun u => !(u == bad))) := by
  intro inputs
  induction inputs with
  | nil => rfl
  | cons u us ih =>
    by_cases hu : u = bad
    · have hbu : cfg.process_function u = .error msg := by rw [hu]; exact hbad
      have hfil : (u :: us).filter (fun w => !(w == bad))
          = us.filter (fun w => !(w == bad)) := by
        simp [List.filter_cons, hu]
      rw [hfil, ← ih]
      simp [Multiprocessor.channelOutput, List.filterMap_cons, hbu]
    · have hfil : (u :: us).filter (fun w => !(w == bad))
          = u :: us.filter (fun w => !(w == bad)) := by
        simp [List.filter_cons, hu]
      rw [hfil]
      simp only [Multiprocessor.channelOutput, List.filterMap_cons] at ih ⊢
      cases hf : cfg.process_function u with
      | error e => simpa [hf] using ih
      | ok res =>
        cases res with
        | none => simpa [hf] using ih
        | some vals =>
          cases hv : vals[i]? with
          | none => simpa [hf, hv] using ih
          | some v =>
            simp only [hf, hv]
            rw [ih]

/-- The failing unit is dropped before anything is written: the worker's
published shard files are exactly those of the run that never received it. -/
theorem Multiprocessor.workerRun_drops_bad [DecidableEq U] (cfg : MPConfig U R)
    (bad : U) (msg : String) (hbad : cfg.process_function bad = .error msg)
    (inputs : List U) :
    (Multiprocessor.workerRun cfg inputs).1
      = (Multiprocessor.workerRun cfg (inputs.filter (fun u => !(u == bad)))).1 := by
  obtain ⟨hl1, hg1, -⟩ := Multiprocessor.workerRun_spec cfg inputs
  obtain ⟨hl2, hg2, -⟩ :=
    Multiprocessor.workerRun_spec cfg (inputs.filter (fun u => !(u == bad)))
  apply List.ext_getElem?
  intro i
  by_cases hi : i < cfg.output_file_names.length
  · rw [hg1 i hi, hg2 i hi,
      Multiprocessor.channelOutput_filter_bad cfg bad msg hbad i inputs]
  · rw [List.getElem?_eq_none (by rw [hl1]; omega),
      List.getElem?_eq_none (by rw [hl2]; omega)]

/-- Channel-0 length and ERROR log of a worker whose stream may contain
occurrences of one failing unit. -/
theorem Multiprocessor.channelOutput_zero_bad [DecidableEq U] (cfg : MPConfig U R)
    (g : U → List R) (bad : U) (msg : String)
    (hbad : cfg.process_function bad = .error msg) :
    ∀ inputs : List U,
      (∀ u ∈ inputs, u ≠ bad → cfg.process_function u = .ok (some (g u)) ∧ g u ≠ []) →
      (Multiprocessor.channelOutput cfg 0 inputs).length
          = inputs.length - inputs.count bad ∧
        Multiprocessor.errorsOf cfg inputs = List.replicate (inputs.count bad) msg := by
  intro inputs
  induction inputs with
  | nil =>
    intro _
    simp [Multiprocessor.channelOutput, Multiprocessor.errorsOf]
  | cons u us ih =>
    intro h
    obtain ⟨hlen, herr⟩ := ih (fun w hw hwb => h w (by simp [hw]) hwb)
    by_cases hu : u = bad
    · have hbu : cfg.process_function u = .error msg := by rw [hu]; exact hbad
      have hc : (u :: us).count bad = us.count bad + 1 := by simp [List.count_cons, hu]
      refine ⟨?_, ?_⟩
      · have hco : Multiprocessor.channelOutput cfg 0 (u :: us)
            = Multiprocessor.channelOutput cfg 0 us := by
          simp [Multiprocessor.channelOutput, List.filterMap_cons, hbu]
        rw [hco, hlen, hc]
        have := List.count_le_length bad us
        simp only [List.length_cons]
        omega
      · have he : Multiprocessor.errorsOf cfg (u :: us)
            = msg :: Multiprocessor.errorsOf cfg us := by
          simp [Multiprocessor.errorsOf, List.filterMap_cons, hbu]
        rw [he, herr, hc, List.replicate_succ]
    · obtain ⟨hup, hune⟩ := h u (by simp) hu
      have hc : (u :: us).count bad = us.count bad := by simp [List.count_cons, hu]
      cases hgu : g u with
      | nil => exact absurd hgu hune
      | cons v vs =>
        rw [hgu] at hup
        refine ⟨?_, ?_⟩
        · have hco : Multiprocessor.channelOutput cfg 0 (u :: us)
              = v :: Multiprocessor.channelOutput cfg 0 us := by
            simp [Multiprocessor.channelOutput, List.filterMap_cons, hup]
          rw [hco]
          simp only [List.length_cons]
          rw [hlen, hc]
          have := List.count_le_length bad us
          omega
        · have he : Multiprocessor.errorsOf cfg (u :: us)
              = Multiprocessor.errorsOf cfg us := by
            simp [Multiprocessor.errorsOf, List.filterMap_cons, hup]
          rw [he, herr, hc]

theorem count_flatten_sum [DecidableEq U] (bad : U) :
    ∀ (l : List (List U)), l.flatten.count bad = (l.map (fun s => s.count bad)).sum := by
  intro l
  induction l with
  | nil => simp
  | cons s rest ih => simp [List.count_append, ih]

theorem flatten_map_replicate (msg : String) :
    ∀ (cnts : List Nat),
      ((cnts.map (fun c => List.replicate c msg)).flatten)
        = List.replicate cnts.sum msg := by
  intro cnts
  induction cnts with
  | nil => simp
  | cons c rest ih =>
    simp only [List.map_cons, List.flatten_cons, List.sum_cons, ih, List.replicate_add]

theorem sum_sub_of_le :
    ∀ (l : List (Nat × Nat)), (∀ p ∈ l, p.2 ≤ p.1) →
      (l.map (fun p => p.1 - p.2)).sum
          = (l.map Prod.fst).sum - (l.map Prod.snd).sum ∧
        (l.map Prod.snd).sum ≤ (l.map Prod.fst).sum := by
  intro l
  induction l with
  | nil => intro _; simp
  | cons p rest ih =>
    intro h
    obtain ⟨h1, h2⟩ := ih (fun q hq => h q (by simp [hq]))
    have hp := h p (by simp)
    simp only [List.map_cons, List.sum_cons]
    omega

/-- **C3** (confirmed): if exactly one occurrence of a failing unit is fed
(its transformation raises) and every other unit succeeds with a channel-0
value, the worker logs exactly one ERROR entry with the exception text, the
unit is dropped — every worker's shard files equal those of the run that
never received the unit — processing continues, and the final channel-0
count is `N - 1`. -/
theorem unit_failure_isolation [DecidableEq U] (cfg : MPConfig U R)
    (assign : List (List U)) (fs0 : FileSys R) (g : U → List R) (bad : U) (msg : String)
    (hW : assign ≠ []) (hC : 0 < cfg.output_file_names.length)
    (hbad : cfg.process_function bad = .error msg)
    (honce : assign.flatten.count bad = 1)
    (hgood : ∀ u ∈ assign.flatten, u ≠ bad →
      cfg.process_function u = .ok (some (g u)) ∧ g u ≠ []) :
    ∃ counts fs logs, Multiprocessor.fullRun cfg assign fs0 = .ok (counts, fs, logs) ∧
      counts[0]? = some (assign.flatten.length - 1) ∧
      logs = [msg] ∧
      ∀ inputs ∈ assign, (Multiprocessor.workerRun cfg inputs).1
        = (Multiprocessor.workerRun cfg (inputs.filter (fun u => !(u == bad)))).1 := by
  have hclose := Multiprocessor.close_started cfg assign fs0
  refine ⟨_, _, _, by simp only [Multiprocessor.fullRun]; rw [hclose]; rfl, ?_, ?_, ?_⟩
  · -- channel-0 count
    set allShards := assign.map (fun i => (Multiprocessor.workerRun cfg i).1) with hAS
    set counts := allShards.foldl
      (Multiprocessor.countsStep cfg.output_file_names.length) [] with hcounts
    have hg0 : counts.getD 0 0 = (allShards.map (fun s => (s.getD 0 []).length)).sum := by
      rw [hcounts, Multiprocessor.countsWorkers_getD0 _ hC]
      simp
    have hmapped : allShards.map (fun s => (s.getD 0 []).length)
        = (assign.map (fun i => (i.length, i.count bad))).map (fun p => p.1 - p.2) := by
      rw [hAS, List.map_map, List.map_map]
      apply List.map_congr_left
      intro inputs hin
      have hspec := (Multiprocessor.workerRun_spec cfg inputs).2.1 0 hC
      have hget : (Multiprocessor.workerRun cfg inputs).1.getD 0 []
          = Multiprocessor.channelOutput cfg 0 inputs := by
        rw [List.getD_eq_getElem?_getD, hspec]
        rfl
      simp only [Function.comp_apply]
      rw [hget]
      exact (Multiprocessor.channelOutput_zero_bad cfg g bad msg hbad inputs
        (fun u hu hub => hgood u (List.mem_flatten.mpr ⟨inputs, hin, hu⟩) hub)).1
    obtain ⟨hsub, -⟩ := sum_sub_of_le (assign.map (fun i => (i.length, i.count bad)))
      (by
        intro p hp
        obtain ⟨inputs, -, rfl⟩ := List.mem_map.mp hp
        exact List.count_le_length bad inputs)
    have hfst : ((assign.map (fun i => (i.length, i.count bad))).map Prod.fst).sum
        = assign.flatten.length := by
      rw [List.map_map, List.length_flatten]
      rfl
    have hsnd : ((assign.map (fun i => (i.length, i.count bad))).map Prod.snd).sum = 1 := by
      rw [List.map_map]
      rw [show (Prod.snd ∘ fun i : List U => (i.length, i.count bad))
          = (fun s : List U => s.count bad) from rfl]
      rw [← count_flatten_sum bad assign]
      exact honce
    have hlen1 : 1 ≤ counts.length := by
      rw [hcounts]
      refine Multiprocessor.countsWorkers_length _ hC allShards [] ?_
      rw [hAS]
      intro hnil
      exact hW (List.map_eq_nil_iff.mp hnil)
    have hidx : counts[0]? = some (counts.getD 0 0) := by
      cases hcc : counts with
      | nil =>
        rw [hcc] at hlen1
        simp at hlen1
      | cons c t => simp [List.getD]
    rw [hidx, hg0, hmapped, hsub, hfst, hsnd]
  · -- the ERROR log
    have hlogs : assign.map (fun inputs => (Multiprocessor.workerRun cfg inputs).2)
        = (assign.map (fun i => i.count bad)).map (fun c => List.replicate c msg) := by
      rw [List.map_map]
      apply List.map_congr_left
      intro inputs hin
      have h3 := (Multiprocessor.workerRun_spec cfg inputs).2.2
      simp only [Function.comp_apply]
      rw [h3]
      exact (Multiprocessor.channelOutput_zero_bad cfg g bad msg hbad inputs
        (fun u hu hub => hgood u (List.mem_flatten.mpr ⟨inputs, hin, hu⟩) hub)).2
    rw [hlogs, flatten_map_replicate, ← count_flatten_sum bad assign, honce]
    rfl
  · intro inputs _
    exact Multiprocessor.workerRun_drops_bad cfg bad msg hbad inputs

/-- Concrete instance of `unit_failure_isolation`: five units split 3/2,
unit 3 raises, channel-0 count 4 and one ERROR entry. -/
theorem unit_failure_isolation_witness :
    ([[0, 1, 2], [3, 4]] : List (List Nat)) ≠ [] ∧
    ([[0, 1, 2], [3, 4]] : List (List Nat)).flatten.count 3 = 1 ∧
    ∃ counts fs logs,
      Multiprocessor.fullRun
          (⟨fun u : Nat => if u = 3 then Except.error "boom" else Except.ok (some [u]),
            2, ["out0"], 2⟩ : MPConfig Nat Nat) [[0, 1, 2], [3, 4]] []
        = .ok (counts, fs, logs) ∧
      counts[0]? = some (([[0, 1, 2], [3, 4]] : List (List Nat)).flatten.length - 1) ∧
      logs = ["boom"] ∧
      ∀ inputs ∈ ([[0, 1, 2], [3, 4]] : List (List Nat)),
        (Multiprocessor.workerRun
          (⟨fun u : Nat => if u = 3 then Except.error "boom" else Except.ok (some [u]),
            2, ["out0"], 2⟩ : MPConfig Nat Nat) inputs).1
          = (Multiprocessor.workerRun
              (⟨fun u : Nat => if u = 3 then Except.error "boom" else Except.ok (some [u]),
                2, ["out0"], 2⟩ : MPConfig Nat Nat)
              (inputs.filter (fun u => !(u == 3)))).1 :=
  ⟨by decide, by decide,
    unit_failure_isolation
      (⟨fun u : Nat => if u = 3 then Except.error "boom" else Except.ok (some [u]),
        2, ["out0"], 2⟩ : MPConfig Nat Nat)
      [[0, 1, 2], [3, 4]] [] (fun u => [u]) 3 "boom"
      (by decide) (by decide) rfl (by decide)
      (by
        intro u hu hne
        refine ⟨?_, by simp⟩
        simp only [if_neg hne])⟩

/-! ### Error handling in the merge of `close` -/

/-- **C2** counterexample: the merge loop of `close()` catches only
`EOFError`; an exception of any other kind raised while transferring a record
from a shard file (here, a corrupted pickle record between two good ones)
propagates out of `close()` instead of being logged and skipped. -/
theorem merge_record_error_propagates :
    Multiprocessor.mergeClose ["out"] ([] : FileSys Nat)
        [[[LoadEvent.val (1 : Nat), LoadEvent.err "corrupt record", LoadEvent.val 2]]]
      = .error "corrupt record" := rfl

theorem Multiprocessor.transferRecords_ok_of_no_err :
    ∀ evs : List (LoadEvent R), (∀ m : String, LoadEvent.err m ∉ evs) →
      ∃ rs, Multiprocessor.transferRecords evs = .ok rs := by
  intro evs
  induction evs with
  | nil =>
    intro _
    exact ⟨[], rfl⟩
  | cons e rest ih =>
    intro h
    cases e with
    | eof => exact ⟨[], rfl⟩
    | err m => exact absurd (List.mem_cons_self _ _) (h m)
    | val r =>
      obtain ⟨rs, hrs⟩ := ih (fun m hm => h m (by simp [hm]))
      exact ⟨r :: rs, by simp [Multiprocessor.transferRecords, hrs, Except.map]⟩

theorem Multiprocessor.mergeChannels_ok_of_no_err (outNames : List String)
    (files : List (List (LoadEvent R)))
    (hfiles : ∀ evs ∈ files, ∀ m : String, LoadEvent.err m ∉ evs) :
    ∀ (idxs : List Nat) (st : List Nat × FileSys R),
      ∃ r, Multiprocessor.mergeChannels outNames files st idxs = .ok r := by
  intro idxs
  induction idxs with
  | nil =>
    intro st
    exact ⟨st, rfl⟩
  | cons i rest ih =>
    intro st
    have hno : ∀ m : String, LoadEvent.err m ∉ files.getD i [] := by
      intro m hm
      rw [List.getD_eq_getElem?_getD] at hm
      cases hgi : files[i]? with
      | none =>
        rw [hgi] at hm
        simp at hm
      | some evs =>
        rw [hgi] at hm
        exact hfiles evs (List.getElem?_mem hgi) m hm
    obtain ⟨rs, hrs⟩ := Multiprocessor.transferRecords_ok_of_no_err _ hno
    obtain ⟨r, hr⟩ := ih (Multiprocessor.accumAdd st.1 i rs.length,
      fsAppend st.2 (outNames.getD i "") rs)
    refine ⟨r, ?_⟩
    simp only [Multiprocessor.mergeChannels, hrs]
    exact hr

theorem Multiprocessor.mergeFold_ok_of_no_err (outNames : List String) :
    ∀ (published : List (List (List (LoadEvent R)))) (st : List Nat × FileSys R),
      (∀ files ∈ published, ∀ evs ∈ files, ∀ m : String, LoadEvent.err m ∉ evs) →
      ∃ r, published.foldlM
          (fun st files => Multiprocessor.mergeWorker outNames st files) st = .ok r := by
  intro published
  induction published with
  | nil =>
    intro st _
    exact ⟨st, rfl⟩
  | cons f ws ih =>
    intro st h
    obtain ⟨r1, hr1⟩ := Multiprocessor.mergeChannels_ok_of_no_err outNames f
      (fun evs he m => h f (by simp) evs he m) (List.range (min outNames.length f.length)) st
    obtain ⟨r2, hr2⟩ := ih r1 (fun g hg evs he m => h g (by simp [hg]) evs he m)
    refine ⟨r2, ?_⟩
    rw [List.foldlM_cons]
    simp only [Multiprocessor.mergeWorker]
    rw [hr1]
    simpa [Bind.bind, Except.bind] using hr2

/-- **C2** amended: the merge loop of `close()` handles exactly one failure
mode — an `EOFError` while loading a record, which silently ends that shard
file's transfer (its prefix is kept and counted, the remainder is lost
without logging) and lets merging proceed with the next shard/worker; as long
as no shard raises a non-EOF exception, `close()` completes without raising.
Any other exception during record transfer propagates out of `close()` (see
the counterexample). -/
theorem merge_record_error_isolation (rs : List R) (junk : List (LoadEvent R))
    (outNames : List String) (fs0 : FileSys R)
    (published : List (List (List (LoadEvent R))))
    (hgood : ∀ files ∈ published, ∀ evs ∈ files, ∀ m : String, LoadEvent.err m ∉ evs) :
    Multiprocessor.transferRecords (rs.map LoadEvent.val ++ LoadEvent.eof :: junk)
        = .ok rs ∧
      ∃ r, Multiprocessor.mergeClose outNames fs0 published = .ok r := by
  constructor
  · induction rs with
    | nil => rfl
    | cons r rest ih =>
      simp only [List.map_cons, List.cons_append, Multiprocessor.transferRecords,
        List.append_eq, Except.map]
      rw [ih]
  · simp only [Multiprocessor.mergeClose]
    exact Multiprocessor.mergeFold_ok_of_no_err outNames published _ hgood

/-- Concrete instance of `merge_record_error_isolation`: an EOF-truncated
shard keeps its prefix and a clean two-worker merge returns `ok`. -/
theorem merge_record_error_isolation_witness :
    (∀ files ∈ ([[[LoadEvent.val (1 : Nat)]], [[LoadEvent.val 2, LoadEvent.eof]]] :
        List (List (List (LoadEvent Nat)))),
      ∀ evs ∈ files, ∀ m : String, LoadEvent.err m ∉ evs) ∧
    (Multiprocessor.transferRecords
        (([3, 4] : List Nat).map LoadEvent.val ++ LoadEvent.eof :: [LoadEvent.val 9])
      = .ok [3, 4] ∧
    ∃ r, Multiprocessor.mergeClose ["out"] ([] : FileSys Nat)
        [[[LoadEvent.val 1]], [[LoadEvent.val 2, LoadEvent.eof]]] = .ok r) := by
  have hgood : ∀ files ∈ ([[[LoadEvent.val (1 : Nat)]], [[LoadEvent.val 2, LoadEvent.eof]]] :
      List (List (List (LoadEvent Nat)))),
      ∀ evs ∈ files, ∀ m : String, LoadEvent.err m ∉ evs := by
    intro files hf evs he m hm
    simp only [List.mem_cons, List.not_mem_nil, or_false] at hf
    rcases hf with rfl | rfl
    · simp only [List.mem_cons, List.not_mem_nil, or_false] at he
      subst he
      simp at hm
    · simp only [List.mem_cons, List.not_mem_nil, or_false] at he
      subst he
      simp at hm
  exact ⟨hgood,
    merge_record_error_isolation [3, 4] [LoadEvent.val 9] ["out"] []
      [[[LoadEvent.val 1]], [[LoadEvent.val 2, LoadEvent.eof]]] hgood⟩

/-! ### Final output file contents -/

theorem fsRead_fsWrite_self (fs : FileSys R) (n : String) (c : List R) :
    fsRead (fsWrite fs n c) n = some c := by
  induction fs with
  | nil => simp [fsWrite, fsRead]
  | cons p t ih =>
    obtain ⟨m, d⟩ := p
    by_cases hm : m = n
    · subst hm
      simp [fsWrite, fsRead]
    · simp [fsWrite, fsRead, hm, ih]

theorem fsRead_fsWrite_ne (fs : FileSys R) (n n' : String) (h : n' ≠ n) (c : List R) :
    fsRead (fsWrite fs n c) n' = fsRead fs n' := by
  have hne : ¬ n = n' := fun he => h he.symm
  induction fs with
  | nil => simp [fsWrite, fsRead, hne]
  | cons p t ih =>
    obtain ⟨m, d⟩ := p
    by_cases hm : m = n
    · subst hm
      simp [fsWrite, fsRead, hne]
    · simp [fsWrite, fsRead, hm, ih]

theorem fsRead_fsAppend_self (fs : FileSys R) (n : String) (recs : List R) :
    fsRead (fsAppend fs n recs) n = some ((fsRead fs n).getD [] ++ recs) := by
  simp only [fsAppend]
  cases h : fsRead fs n <;> simp [h, fsRead_fsWrite_self]

theorem fsRead_fsAppend_ne (fs : FileSys R) (n n' : String) (h : n' ≠ n) (recs : List R) :
    fsRead (fsAppend fs n recs) n' = fsRead fs n' := by
  simp only [fsAppend]
  cases hr : fsRead fs n <;> simp [fsRead_fsWrite_ne fs n n' h]

/-- Reading after the truncation pass of `close` (lines 185–186). -/
theorem fsRead_truncateAll :
    ∀ (outNames : List String) (fs : FileSys R) (n : String),
      fsRead (outNames.foldl (fun acc nm => fsWrite acc nm []) fs) n
        = if n ∈ outNames then some [] else fsRead fs n := by
  intro outNames
  induction outNames with
  | nil => simp
  | cons m rest ih =>
    intro fs n
    rw [List.foldl_cons, ih]
    by_cases hn : n ∈ rest
    · simp [hn]
    · rw [if_neg hn]
      by_cases hnm : n = m
      · subst hnm
        simp [fsRead_fsWrite_self]
      · rw [fsRead_fsWrite_ne fs m n hnm]
        simp [hnm, hn]

/-- Appending shard `j` only touches file `outNames[j]`: reading file `i`
after a worker's channel loop sees exactly its own shard appended (distinct
channel names). -/
theorem fsAppendFold_read (outNames : List String) (hnodup : outNames.Nodup)
    (shards : List (List R)) (i : Nat) (hi : i < outNames.length) :
    ∀ (idxs : List Nat) (fs : FileSys R), (∀ j ∈ idxs, j < outNames.length) → idxs.Nodup →
      fsRead (idxs.foldl
          (fun f j => fsAppend f (outNames.getD j "") (shards.getD j [])) fs)
          (outNames.getD i "")
        = if i ∈ idxs
          then some ((fsRead fs (outNames.getD i "")).getD [] ++ shards.getD i [])
          else fsRead fs (outNames.getD i "") := by
  intro idxs
  induction idxs with
  | nil =>
    intro fs _ _
    simp
  | cons j rest ih =>
    intro fs hjlt hnd
    rw [List.foldl_cons]
    rw [ih _ (fun q hq => hjlt q (by simp [hq])) (List.nodup_cons.mp hnd).2]
    by_cases hji : j = i
    · subst hji
      have hnotin : j ∉ rest := (List.nodup_cons.mp hnd).1
      rw [if_neg hnotin, if_pos (by simp), fsRead_fsAppend_self]
    · have hname : outNames.getD i "" ≠ outNames.getD j "" := by
        intro he
        have hj : j < outNames.length := hjlt j (by simp)
        rw [List.getD_eq_getElem _ _ hi, List.getD_eq_getElem _ _ hj] at he
        exact hji ((List.Nodup.getElem_inj_iff hnodup).mp he.symm)
      rw [fsRead_fsAppend_ne _ _ _ hname]
      by_cases hir : i ∈ rest
      · rw [if_pos hir, if_pos (by simp [hir])]
      · have hij : ¬ i = j := fun he => hji he.symm
        rw [if_neg hir, if_neg (by simp [hij, hir])]

/-- Reading channel `i`'s final file after merging a list of workers. -/
theorem Multiprocessor.fsWorkers_read (outNames : List String) (hnodup : outNames.Nodup)
    (i : Nat) (hi : i < outNames.length) :
    ∀ (ws : List (List (List R))) (fs : FileSys R) (base : List R),
      fsRead fs (outNames.getD i "") = some base →
      fsRead (ws.foldl (Multiprocessor.fsStep outNames) fs) (outNames.getD i "")
        = some (base ++ (ws.map (fun s => s.getD i [])).flatten) := by
  intro ws
  induction ws with
  | nil =>
    intro fs base h
    simpa using h
  | cons s rest ih =>
    intro fs base h
    rw [List.foldl_cons]
    have hstep : fsRead (Multiprocessor.fsStep outNames fs s) (outNames.getD i "")
        = some (base ++ s.getD i []) := by
      rw [Multiprocessor.fsStep,
        fsAppendFold_read outNames hnodup s i hi (List.range outNames.length) fs
          (fun j hj => List.mem_range.mp hj) (List.nodup_range _),
        if_pos (List.mem_range.mpr hi), h]
      rfl
    rw [ih _ _ hstep]
    simp

/-- **C4** counterexample: a run of five single-channel records ends, after
`close()`, with exactly one final file for channel 0, named verbatim by the
caller-supplied channel name and holding all five records — not
`⌈5/2⌉ = 3` cap-2 part-files named `out0.part<N>.json`; no per-file record
cap is applied by the merge. -/
theorem merge_no_chunking_counterexample :
    ∃ counts fs logs,
      Multiprocessor.fullRun
          (⟨fun u : Nat => Except.ok (some [u]), 1, ["out0"], -1⟩ : MPConfig Nat Nat)
          [[0, 1, 2, 3, 4]] [] = .ok (counts, fs, logs) ∧
      fsRead fs "out0" = some [0, 1, 2, 3, 4] ∧
      ¬ (∀ l, fsRead fs "out0" = some l → l.length ≤ 2) ∧
      fsRead fs "out0.part1.json" = none := by
  refine ⟨[5], [("out0", [0, 1, 2, 3, 4])], [], rfl, rfl, ?_, rfl⟩
  intro hall
  have h5 := hall [0, 1, 2, 3, 4] rfl
  simp at h5

/-- **C4** amended: the merge in `close()` involves no Chunked Writer, no
per-file record cap and no `.part<N>` naming — per channel it produces
exactly one final file, named verbatim by the caller-supplied channel file
name, holding every record of that channel from every worker, in result
order. -/
theorem merge_single_file_per_channel (cfg : MPConfig U R) (assign : List (List U))
    (fs0 : FileSys R) (hnodup : cfg.output_file_names.Nodup)
    (i : Nat) (hi : i < cfg.output_file_names.length) :
    ∃ counts fs logs, Multiprocessor.fullRun cfg assign fs0 = .ok (counts, fs, logs) ∧
      fsRead fs (cfg.output_file_names.getD i "")
        = some ((assign.map (fun inputs =>
            Multiprocessor.channelOutput cfg i inputs)).flatten) := by
  have hclose := Multiprocessor.close_started cfg assign fs0
  refine ⟨_, _, _, by simp only [Multiprocessor.fullRun]; rw [hclose]; rfl, ?_⟩
  have hbase : fsRead
      (cfg.output_file_names.foldl (fun acc n => fsWrite acc n []) fs0)
      (cfg.output_file_names.getD i "") = some [] := by
    rw [fsRead_truncateAll, if_pos ?hmem]
    case hmem =>
      rw [List.getD_eq_getElem _ _ hi]
      exact List.getElem_mem _
  rw [Multiprocessor.fsWorkers_read cfg.output_file_names hnodup i hi _ _ [] hbase]
  rw [List.nil_append]
  congr 1
  rw [List.map_map]
  congr 1
  apply List.map_congr_left
  intro inputs hin
  simp only [Function.comp_apply]
  have hspec := (Multiprocessor.workerRun_spec cfg inputs).2.1 i hi
  rw [List.getD_eq_getElem?_getD, hspec]
  rfl

/-- Concrete instance of `merge_single_file_per_channel`: two channels, two
workers — each channel's sole final file collects both workers' records. -/
theorem merge_single_file_per_channel_witness :
    (["a", "b"] : List String).Nodup ∧ 0 < (["a", "b"] : List String).length ∧
    ∃ counts fs logs,
      Multiprocessor.fullRun
          (⟨fun u : Nat => Except.ok (some [u, u + 10]), 2, ["a", "b"], 1⟩ :
            MPConfig Nat Nat) [[1], [2]] [] = .ok (counts, fs, logs) ∧
      fsRead fs ((["a", "b"] : List String).getD 0 "")
        = some (([[1], [2]] : List (List Nat)).map (fun inputs =>
            Multiprocessor.channelOutput
              (⟨fun u : Nat => Except.ok (some [u, u + 10]), 2, ["a", "b"], 1⟩ :
                MPConfig Nat Nat) 0 inputs)).flatten :=
  ⟨by decide, by decide,
    merge_single_file_per_channel
      (⟨fun u : Nat => Except.ok (some [u, u + 10]), 2, ["a", "b"], 1⟩ : MPConfig Nat Nat)
      [[1], [2]] [] (by decide) 0 (by decide)⟩

/-! ### Presence of the final output files -/

theorem fsRead_isSome_fsAppend (fs : FileSys R) (n n' : String) (recs : List R)
    (h : (fsRead fs n').isSome = true) :
    (fsRead (fsAppend fs n recs) n').isSome = true := by
  by_cases he : n' = n
  · subst he
    rw [fsRead_fsAppend_self]
    rfl
  · rw [fsRead_fsAppend_ne _ _ _ he]
    exact h

theorem fsRead_isSome_appendFold (outNames : List String) (shards : List (List R))
    (n' : String) :
    ∀ (idxs : List Nat) (fs : FileSys R), (fsRead fs n').isSome = true →
      (fsRead (idxs.foldl
        (fun f j => fsAppend f (outNames.getD j "") (shards.getD j [])) fs) n').isSome
        = true := by
  intro idxs
  induction idxs with
  | nil => intro fs h; exact h
  | cons j rest ih =>
    intro fs h
    rw [List.foldl_cons]
    exact ih _ (fsRead_isSome_fsAppend fs _ n' _ h)

theorem Multiprocessor.fsWorkers_isSome (outNames : List String) (n' : String) :
    ∀ (ws : List (List (List R))) (fs : FileSys R), (fsRead fs n').isSome = true →
      (fsRead (ws.foldl (Multiprocessor.fsStep outNames) fs) n').isSome = true := by
  intro ws
  induction ws with
  | nil => intro fs h; exact h
  | cons s rest ih =>
    intro fs h
    rw [List.foldl_cons]
    exact ih _ (fsRead_isSome_appendFold outNames s n' _ fs h)

/-- **C10** (confirmed, implicit claim): every run of `close()` on a started
pool first creates — truncating any pre-existing file of the same name — one
final output file per declared channel, so each channel's final output file
exists after `close()` even when zero records were produced for it (its
content is then empty, not the pre-existing content). -/
theorem close_creates_channel_files (cfg : MPConfig U R) (assign : List (List U))
    (fs0 : FileSys R) :
    ∃ counts fs logs, Multiprocessor.fullRun cfg assign fs0 = .ok (counts, fs, logs) ∧
      (∀ name ∈ cfg.output_file_names, (fsRead fs name).isSome = true) ∧
      (cfg.output_file_names.Nodup → ∀ i, i < cfg.output_file_names.length →
        (∀ inputs ∈ assign, Multiprocessor.channelOutput cfg i inputs = []) →
        fsRead fs (cfg.output_file_names.getD i "") = some []) := by
  have hclose := Multiprocessor.close_started cfg assign fs0
  refine ⟨_, _, _, by simp only [Multiprocessor.fullRun]; rw [hclose]; rfl, ?_, ?_⟩
  · intro name hname
    refine Multiprocessor.fsWorkers_isSome cfg.output_file_names name _ _ ?_
    rw [fsRead_truncateAll, if_pos hname]
    rfl
  · intro hnodup i hi hempty
    have hcontent : fsRead
        ((assign.map (fun w => (Multiprocessor.workerRun cfg w).1)).foldl
          (Multiprocessor.fsStep cfg.output_file_names)
          (cfg.output_file_names.foldl (fun acc n => fsWrite acc n []) fs0))
        (cfg.output_file_names.getD i "")
        = some ((assign.map (fun inputs =>
            Multiprocessor.channelOutput cfg i inputs)).flatten) := by
      have hbase : fsRead
          (cfg.output_file_names.foldl (fun acc n => fsWrite acc n []) fs0)
          (cfg.output_file_names.getD i "") = some [] := by
        rw [fsRead_truncateAll, if_pos ?hmem2]
        case hmem2 =>
          rw [List.getD_eq_getElem _ _ hi]
          exact List.getElem_mem _
      rw [Multiprocessor.fsWorkers_read cfg.output_file_names hnodup i hi _ _ [] hbase]
      rw [List.nil_append]
      congr 1
      rw [List.map_map]
      congr 1
      apply List.map_congr_left
      intro inputs hin
      simp only [Function.comp_apply]
      have hspec := (Multiprocessor.workerRun_spec cfg inputs).2.1 i hi
      rw [List.getD_eq_getElem?_getD, hspec]
      rfl
    rw [hcontent]
    congr 1
    have hmapnil : assign.map (fun inputs => Multiprocessor.channelOutput cfg i inputs)
        = assign.map (fun _ => ([] : List R)) := by
      apply List.map_congr_left
      intro inputs hin
      exact hempty inputs hin
    rw [hmapnil]
    simp

/-- Concrete instance of `close_creates_channel_files`: the second channel
gets no records (the transformation yields one value), yet its final file
exists with empty content; the pre-existing file under the same name is
truncated. -/
theorem close_creates_channel_files_witness :
    ∃ counts fs logs,
      Multiprocessor.fullRun
          (⟨fun u : Nat => Except.ok (some [u]), 1, ["a", "b"], -1⟩ : MPConfig Nat Nat)
          [[7]] [("b", [99])] = .ok (counts, fs, logs) ∧
      (∀ name ∈ (["a", "b"] : List String), (fsRead fs name).isSome = true) ∧
      ((["a", "b"] : List String).Nodup → ∀ i, i < (["a", "b"] : List String).length →
        (∀ inputs ∈ ([[7]] : List (List Nat)),
          Multiprocessor.channelOutput
            (⟨fun u : Nat => Except.ok (some [u]), 1, ["a", "b"], -1⟩ : MPConfig Nat Nat)
            i inputs = []) →
        fsRead fs ((["a", "b"] : List String).getD i "") = some []) :=
  close_creates_channel_files
    (⟨fun u : Nat => Except.ok (some [u]), 1, ["a", "b"], -1⟩ : MPConfig Nat Nat)
    [[7]] [("b", [99])]

/-- **C9** (confirmed, implicit claim): `close()` on a controller that was
never started — or that a previous `close()` already reset — raises no
error, touches no file, returns the empty list of per-channel counts, and
leaves the controller in the un-started state (`self._state = None`). -/
theorem close_unstarted (cfg : MPConfig U R) (fs0 : FileSys R) :
    Multiprocessor.close cfg none fs0 = .ok (none, [], fs0) := rfl

/-! ### Constructor validation -/

/-- **C6** counterexample: constructing the controller with a negative worker
count and a non-positive buffer size raises nothing (`Multiprocessor.__init__`
performs no validation), and `start()` on that controller spawns zero worker
processes instead of failing. -/
theorem controller_accepts_negative_workers :
    (¬ ∃ e : String, Multiprocessor.init (fun u : Nat => Except.ok (some [u]))
        (-1) ["out0"] (-1) = .error e) ∧
    Multiprocessor.startWorkerIds (-1) = [] := by
  constructor
  · rintro ⟨e, he⟩
    simp [Multiprocessor.init] at he
  · rfl

/-- **C6** amended: only the Chunked Writer validates its constructor
arguments — a non-positive buffer size raises before any file I/O, and a
successful construction has performed no file I/O (no file created, none
open).  The controller's constructor performs no validation at all: any
worker count (negative included) and any buffer size are accepted without
error, and `start()` with a non-positive worker count spawns zero worker
processes. -/
theorem construction_validation (α U R : Type) (mfo : Option Int) (bsz : Int)
    (hbsz : bsz ≤ 0) (f : U → Except String (Option (List R))) (w : Int)
    (names : List String) (bsz2 : Int) (hw : w ≤ 0) (bsz3 : Int) (hbsz3 : 0 < bsz3) :
    JSONWriter.init α mfo bsz = .error "Buffer size must be a positive integer" ∧
    (∃ mp, Multiprocessor.init f w names bsz2 = .ok mp) ∧
    Multiprocessor.startWorkerIds w = [] ∧
    (∃ s, JSONWriter.init α mfo bsz3 = .ok s ∧ s.closedFiles = [] ∧
      s.currentFile = none) := by
  refine ⟨?_, ⟨_, rfl⟩, ?_, ?_⟩
  · simp [JSONWriter.init, hbsz]
  · rw [Multiprocessor.startWorkerIds, Int.toNat_of_nonpos hw]
    rfl
  · refine ⟨JSONWriter.initState α
      (match mfo with | some v => if v = 0 then -1 else v | none => -1) bsz3,
      ?_, rfl, rfl⟩
    simp [JSONWriter.init, JSONWriter.initState, show ¬ bsz3 ≤ 0 by omega]

/-- Concrete instance of `construction_validation`. -/
theorem construction_validation_witness :
    ((0 : Int) ≤ 0) ∧ ((-2 : Int) ≤ 0) ∧ ((0 : Int) < 1) ∧
    (JSONWriter.init Nat (some 2) 0 = .error "Buffer size must be a positive integer" ∧
    (∃ mp, Multiprocessor.init (fun u : Nat => Except.ok (some [u])) (-2) ["out0"] (-1)
      = .ok mp) ∧
    Multiprocessor.startWorkerIds (-2) = [] ∧
    (∃ s, JSONWriter.init Nat (some 2) 1 = .ok s ∧ s.closedFiles = [] ∧
      s.currentFile = none)) :=
  ⟨by norm_num, by norm_num, by norm_num,
    construction_validation Nat Nat Nat (some 2) 0 (by norm_num)
      (fun u : Nat => Except.ok (some [u])) (-2) ["out0"] (-1) (by norm_num) 1 (by norm_num)⟩

/-! ### Batch reading -/

/-- The sequence of records the iteration has not yet produced: the open
file's unconsumed records followed by the records of the remaining files. -/
def JSONReader.streamOf (s : JSONReader α) : List α :=
  s.parserRest ++ (s.file_paths.drop (s.file_index + 1)).flatten

theorem JSONReader.remaining_eq_length_streamOf (s : JSONReader α) :
    JSONReader.remaining s = (JSONReader.streamOf s).length := by
  simp [JSONReader.remaining, JSONReader.streamOf, List.length_flatten]

theorem JSONReader.next_spec_fuel (n : Nat) :
    ∀ s : JSONReader α, s.file_paths.length - s.file_index ≤ n →
    (JSONReader.next s = none ∧ JSONReader.streamOf s = []) ∨
    (∃ r s', JSONReader.next s = some (r, s') ∧
      JSONReader.streamOf s = r :: JSONReader.streamOf s') := by
  induction n with
  | zero =>
    rintro ⟨files, idx, rest⟩ hf
    simp only at hf
    match rest with
    | r :: t =>
      right
      refine ⟨r, ⟨files, idx, t⟩, ?_, ?_⟩
      · rw [JSONReader.next]
      · simp [JSONReader.streamOf]
    | [] =>
      left
      constructor
      · rw [JSONReader.next]
        rw [dif_neg (by omega)]
      · simp only [JSONReader.streamOf, List.nil_append]
        rw [List.drop_eq_nil_of_le (by omega)]
        rfl
  | succ n ih =>
    rintro ⟨files, idx, rest⟩ hf
    simp only at hf
    match rest with
    | r :: t =>
      right
      refine ⟨r, ⟨files, idx, t⟩, ?_, ?_⟩
      · rw [JSONReader.next]
      · simp [JSONReader.streamOf]
    | [] =>
      by_cases hlt : idx + 1 < files.length
      · have hstep : JSONReader.next (⟨files, idx, []⟩ : JSONReader α)
            = JSONReader.next (⟨files, idx + 1, files.getD (idx + 1) []⟩ : JSONReader α) := by
          rw [JSONReader.next]
          rw [dif_pos hlt]
        have hstream : JSONReader.streamOf (⟨files, idx, []⟩ : JSONReader α)
            = JSONReader.streamOf (⟨files, idx + 1, files.getD (idx + 1) []⟩ : JSONReader α) := by
          simp only [JSONReader.streamOf, List.nil_append]
          rw [List.drop_eq_getElem_cons hlt]
          rw [List.flatten_cons]
          rw [List.getD_eq_getElem _ _ hlt]
        have hih := ih (⟨files, idx + 1, files.getD (idx + 1) []⟩ : JSONReader α) (by simp; omega)
        rw [hstep, hstream]
        exact hih
      · left
        constructor
        · rw [JSONReader.next]
          rw [dif_neg hlt]
        · simp only [JSONReader.streamOf, List.nil_append]
          rw [List.drop_eq_nil_of_le (by omega)]
          rfl

theorem JSONReader.next_spec (s : JSONReader α) :
    (JSONReader.next s = none ∧ JSONReader.streamOf s = []) ∨
    (∃ r s', JSONReader.next s = some (r, s') ∧
      JSONReader.streamOf s = r :: JSONReader.streamOf s') :=
  JSONReader.next_spec_fuel (s.file_paths.length - s.file_index) s (Nat.le_refl _)

theorem JSONReader.read_batch_spec (bs : Nat) :
    ∀ s : JSONReader α,
      (bs ≤ (JSONReader.streamOf s).length →
        ∃ s', JSONReader.read_batch s bs
            = .ok ((JSONReader.streamOf s).take bs, s') ∧
          JSONReader.streamOf s' = (JSONReader.streamOf s).drop bs) ∧
      ((JSONReader.streamOf s).length < bs →
        JSONReader.read_batch s bs = .error "generator raised StopIteration") := by
  induction bs with
  | zero =>
    intro s
    constructor
    · intro _
      exact ⟨s, rfl, rfl⟩
    · intro h
      omega
  | succ n ih =>
    intro s
    rcases JSONReader.next_spec s with ⟨hnone, hempty⟩ | ⟨r, s', hsome, hstream⟩
    · constructor
      · intro h
        rw [hempty] at h
        simp at h
      · intro _
        rw [JSONReader.read_batch, hnone]
    · have hlen : (JSONReader.streamOf s).length = (JSONReader.streamOf s').length + 1 := by
        rw [hstream]; rfl
      constructor
      · intro h
        obtain ⟨s'', hok, hrest⟩ := (ih s').1 (by omega)
        refine ⟨s'', ?_, ?_⟩
        · simp only [JSONReader.read_batch, hsome, hok]
          rw [hstream]
          rfl
        · rw [hrest, hstream]
          rfl
      · intro h
        have herr := (ih s').2 (by omega)
        simp only [JSONReader.read_batch, hsome, herr]
        rfl

/-- **C7** counterexample: a reader over one source file holding a single
record, asked for a batch of two, does not return the one remaining record
without error — under PEP 479 the `StopIteration` raised by `next(self)`
inside the generator expression of `read_batch` becomes
`RuntimeError("generator raised StopIteration")`, which propagates to the
caller. -/
theorem read_batch_underfull_raises :
    JSONReader.read_batch (JSONReader.iterStart ([[1]] : List (List Nat))) 2
      = .error "generator raised StopIteration" ∧
    JSONReader.remaining (JSONReader.iterStart ([[1]] : List (List Nat))) = 1 := by
  constructor
  · simp [JSONReader.read_batch, JSONReader.iterStart, JSONReader.next, Except.map]
  · rfl

/-- **C7** amended: `read_batch(n)` returns exactly `n` records — the next
`n` of the record sequence — when at least `n` records remain, and raises
`RuntimeError("generator raised StopIteration")` (it does not return the
remaining records) when fewer than `n` remain. -/
theorem batch_read (s : JSONReader α) (n : Nat) :
    (n ≤ JSONReader.remaining s →
      ∃ recs s', JSONReader.read_batch s n = .ok (recs, s') ∧
        recs.length = n ∧ recs = (JSONReader.streamOf s).take n ∧
        JSONReader.remaining s' = JSONReader.remaining s - n) ∧
    (JSONReader.remaining s < n →
      JSONReader.read_batch s n = .error "generator raised StopIteration") := by
  rw [JSONReader.remaining_eq_length_streamOf]
  constructor
  · intro h
    obtain ⟨s', hok, hrest⟩ := (JSONReader.read_batch_spec n s).1 h
    refine ⟨_, s', hok, ?_, rfl, ?_⟩
    · rw [List.length_take]
      omega
    · rw [JSONReader.remaining_eq_length_streamOf, hrest, List.length_drop]
  · exact (JSONReader.read_batch_spec n s).2

/-- Concrete instance of `batch_read`: two source files with three records in
total, batch size two — the first two records come back. -/
theorem batch_read_witness :
    (2 ≤ JSONReader.remaining (JSONReader.iterStart ([[1, 2], [3]] : List (List Nat)))) ∧
    (∃ recs s',
      JSONReader.read_batch (JSONReader.iterStart ([[1, 2], [3]] : List (List Nat))) 2
        = .ok (recs, s') ∧
      recs.length = 2 ∧
      recs = (JSONReader.streamOf (JSONReader.iterStart ([[1, 2], [3]] : List (List Nat)))).take 2 ∧
      JSONReader.remaining s'
        = JSONReader.remaining (JSONReader.iterStart ([[1, 2], [3]] : List (List Nat))) - 2) :=
  ⟨by decide, (batch_read (JSONReader.iterStart ([[1, 2], [3]] : List (List Nat))) 2).1 (by decide)⟩

end ThesisData
